import Mathlib

/-!
Verification of the CSV price-ingestion service.

The repository contains two near-identical variants of the ingestion
handler:

* the content-keyed variant (`src/handlers.go`): records carry
  (name, category, price, create_date); deduplication compares that whole
  content tuple against the store inside one transaction
  (`uploadPrices`, handlers.go lines 27-157);
* the identifier-keyed variant (`src/main.go`, and the copy concatenated
  in `src/database.go`): records carry a caller-supplied integer
  identifier; deduplication is by that identifier, checked against a
  batch-local set and the live store during parsing, with best-effort
  per-row inserts afterwards (`uploadPrices`, main.go lines 81-300).

Both variants share the archive extractor (`extractCSVFiles`,
handlers.go lines 270-337) and the export handler (`getPrices`).

This file gives a shallow embedding of those functions and proves or
refutes the frozen specification claims about them.  Machine floats are
modelled by exact unnormalised fractions (`Dec`): the decimal fragment
of `strconv.ParseFloat`'s grammar maps a literal to its exact value, and
comparisons/equality are cross-multiplication, matching SQL DECIMAL
semantics.  Exotic `ParseFloat` inputs (hex floats, Inf/NaN,
underscores, values overflowing float64) and DECIMAL(10,2) rounding are
outside the modelled fragment; no theorem below depends on them.
-/

/-- Go `unicode.IsSpace` restricted to ASCII, as used by
`strings.TrimSpace` on the inputs modelled here. -/
def isSpaceGo (c : Char) : Bool :=
  c = ' ' || c = '\t' || c = '\n' || c = '\r' || c = Char.ofNat 11 || c = Char.ofNat 12

/-- Model of Go `strings.TrimSpace`: drop leading and trailing whitespace. -/
def trimSpace (s : String) : String :=
  String.mk (((s.toList.dropWhile isSpaceGo).reverse.dropWhile isSpaceGo).reverse)

def isDigitC (c : Char) : Bool := '0' ≤ c && c ≤ '9'

def digitsToNat (l : List Char) : Nat := l.foldl (fun a c => a * 10 + (c.toNat - 48)) 0

/-- Model of Go `strconv.Atoi`: optional sign followed by one or more
decimal digits and nothing else.  (The int64 range check is not
modelled; no claim depends on it.) -/
def atoi (s : String) : Option Int :=
  let (neg, t) :=
    match s.toList with
    | '-' :: t => (true, t)
    | '+' :: t => (false, t)
    | t => (false, t)
  if t.isEmpty || !(t.all isDigitC) then none
  else some (if neg then -(digitsToNat t : Int) else (digitsToNat t : Int))

/-- Exact decimal value: an unnormalised fraction `num / den` with
`den` a positive power of ten by construction.  This models the numeric
value a price literal denotes; equality and order are compared by
cross-multiplication, as SQL compares DECIMAL values. -/
structure Dec where
  num : Int
  den : Nat
deriving DecidableEq, Repr

/-- Numeric equality of two decimal values (SQL `=` on DECIMAL). -/
def decEquiv (a b : Dec) : Bool := a.num * (b.den : Int) = b.num * (a.den : Int)

/-- Numeric order on decimal values (SQL `<=`); valid because all
denominators built in this file are positive. -/
def decLe (a b : Dec) : Bool := a.num * (b.den : Int) ≤ b.num * (a.den : Int)

def decZero : Dec := ⟨0, 1⟩

def decAdd (a b : Dec) : Dec := ⟨a.num * b.den + b.num * a.den, a.den * b.den⟩

/-- Model of Go `strconv.ParseFloat` on the decimal fragment of its
grammar: optional sign, digits with an optional fraction part (at least
one digit overall), and an optional `e`/`E` exponent.  The exact value
is returned instead of the rounded float64. -/
def parseFloatDec (s : String) : Option Dec :=
  let (neg, cs) :=
    match s.toList with
    | '-' :: t => (true, t)
    | '+' :: t => (false, t)
    | t => (false, t)
  let ip := cs.takeWhile isDigitC
  let r1 := cs.dropWhile isDigitC
  let (fp, r2) :=
    match r1 with
    | '.' :: t => (t.takeWhile isDigitC, t.dropWhile isDigitC)
    | _ => ([], r1)
  if ip.isEmpty && fp.isEmpty then none
  else
    let mantNum : Nat := digitsToNat (ip ++ fp)
    let mantDen : Nat := 10 ^ fp.length
    let expPart : Option (Bool × Nat) :=
      match r2 with
      | [] => some (false, 0)
      | 'e' :: t =>
        let (esgn, t1) :=
          match t with
          | '-' :: u => (true, u)
          | '+' :: u => (false, u)
          | u => (false, u)
        if t1.isEmpty || !(t1.all isDigitC) then none else some (esgn, digitsToNat t1)
      | 'E' :: t =>
        let (esgn, t1) :=
          match t with
          | '-' :: u => (true, u)
          | '+' :: u => (false, u)
          | u => (false, u)
        if t1.isEmpty || !(t1.all isDigitC) then none else some (esgn, digitsToNat t1)
      | _ => none
    match expPart with
    | none => none
    | some (esgn, emag) =>
      let n : Nat := if esgn then mantNum else mantNum * 10 ^ emag
      let d : Nat := if esgn then mantDen * 10 ^ emag else mantDen
      some ⟨if neg then -(n : Int) else (n : Int), d⟩

/-- A calendar date, as parsed from `YYYY-MM-DD`. -/
structure Date where
  year : Nat
  month : Nat
  day : Nat
deriving DecidableEq, Repr

def isLeapYear (y : Nat) : Bool := y % 4 = 0 && (y % 100 ≠ 0 || y % 400 = 0)

def daysInMonth (y m : Nat) : Nat :=
  if m = 2 then (if isLeapYear y then 29 else 28)
  else if m = 4 || m = 6 || m = 9 || m = 11 then 30
  else 31

/-- Model of Go `time.Parse("2006-01-02", s)`: the string must be
exactly four digits, dash, two digits, dash, two digits, and denote a
valid calendar date (month 1-12, day within the month). -/
def parseDate (s : String) : Option Date :=
  match s.toList with
  | [y1, y2, y3, y4, '-', m1, m2, '-', d1, d2] =>
    if [y1, y2, y3, y4, m1, m2, d1, d2].all isDigitC then
      let y := digitsToNat [y1, y2, y3, y4]
      let m := digitsToNat [m1, m2]
      let d := digitsToNat [d1, d2]
      if 1 ≤ m && m ≤ 12 && 1 ≤ d && d ≤ daysInMonth y m then some ⟨y, m, d⟩ else none
    else none
  | _ => none

/-- Lexicographic order on dates (SQL `<=` on DATE). -/
def dateLe (a b : Date) : Bool :=
  if a.year ≠ b.year then a.year < b.year
  else if a.month ≠ b.month then a.month < b.month
  else a.day ≤ b.day

/-! ## Content-keyed variant (`src/handlers.go`) -/

/-- `priceRecord` (handlers.go lines 20-25): the content tuple. -/
structure PriceRec where
  name : String
  category : String
  price : Dec
  createDate : Date
deriving DecidableEq, Repr

/-- One row of the per-record existence check (handlers.go lines
119-121): SQL `WHERE name = $1 AND category = $2 AND price = $3 AND
create_date = $4` against a stored row; DECIMAL equality is numeric. -/
def recMatches (x r : PriceRec) : Bool :=
  x.name = r.name && x.category = r.category && decEquiv x.price r.price &&
    x.createDate = r.createDate

/-- `SELECT EXISTS(...)` over the rows visible to the transaction. -/
def existsMatch (s : List PriceRec) (r : PriceRec) : Bool :=
  s.any (fun x => recMatches x r)

/-- Row validation of the content-keyed variant (handlers.go lines
76-101): at least 5 columns; trimmed name and category non-empty;
trimmed price column parses and is strictly positive; trimmed date
column parses as `YYYY-MM-DD`. -/
def parseRowContent (record : List String) : Option PriceRec :=
  if record.length < 5 then none
  else
    let name := trimSpace (record.getD 1 "")
    let category := trimSpace (record.getD 2 "")
    if name = "" ∨ category = "" then none
    else
      match parseFloatDec (trimSpace (record.getD 3 "")) with
      | none => none
      | some price =>
        if decLe price decZero then none
        else
          match parseDate (trimSpace (record.getD 4 "")) with
          | none => none
          | some createDate => some ⟨name, category, price, createDate⟩

/-- The per-file row loop of the content-keyed variant (handlers.go
lines 71-102): the row at index 0 is skipped unconditionally; every
later row is validated independently and appended to `validRecords`
when it passes. -/
def contentRowsLoop (acc : List PriceRec) (i : Nat) : List (List String) → List PriceRec
  | [] => acc
  | r :: rest =>
    if i = 0 then contentRowsLoop acc (i + 1) rest
    else
      match parseRowContent r with
      | none => contentRowsLoop acc (i + 1) rest
      | some p => contentRowsLoop (acc ++ [p]) (i + 1) rest

/-- `validRecords` accumulated over all CSV files of the batch
(handlers.go lines 58-103).  A file with no rows is skipped, which the
index loop already yields. -/
def contentCollect (files : List (List (List String))) : List PriceRec :=
  files.foldl (fun acc f => contentRowsLoop acc 0 f) []

/-- State threaded through the persistence loop of handlers.go lines
112-143: transaction-visible store, `duplicatesCount`, `insertedCount`,
the `categories` set (insertion-ordered, no repeats) and `totalPrice`. -/
structure PersistSt where
  store : List PriceRec
  dup : Nat
  ins : Nat
  cats : List String
  tp : Dec
deriving DecidableEq, Repr

/-- `categories[rec.category] = true` (handlers.go line 141): a map used
only for its size, modelled as a duplicate-free list. -/
def catsAdd (cats : List String) (c : String) : List String :=
  if cats.contains c then cats else cats ++ [c]

/-- Fault-free persistence loop (handlers.go lines 117-143): for each
validated record, check existence against the rows the transaction
sees (committed store plus its own earlier inserts), then either count
a duplicate or insert. -/
def contentPersistLoop (st : PersistSt) : List PriceRec → PersistSt
  | [] => st
  | r :: rest =>
    if existsMatch st.store r then
      contentPersistLoop { st with dup := st.dup + 1 } rest
    else
      contentPersistLoop
        { store := st.store ++ [r], dup := st.dup, ins := st.ins + 1,
          cats := catsAdd st.cats r.category, tp := decAdd st.tp r.price } rest

def contentPersist (s : List PriceRec) (recs : List PriceRec) : PersistSt :=
  contentPersistLoop ⟨s, 0, 0, [], decZero⟩ recs

/-- The JSON summary of either variant (handlers.go lines 150-156,
main.go lines 293-299). -/
structure UploadSummary where
  totalCount : Nat
  duplicatesCount : Nat
  totalItems : Nat
  totalCategories : Nat
  totalPrice : Dec
deriving DecidableEq, Repr

/-- The content-keyed upload on already-decoded CSV rows: collect
`validRecords`, run the fault-free persistence loop, commit, and report
the batch-level summary of handlers.go lines 150-156
(`total_count = len(validRecords)`, `total_items = insertedCount`,
`total_categories = len(categories)`, `total_price = totalPrice`). -/
def contentUpload (s : List PriceRec) (files : List (List (List String))) :
    List PriceRec × UploadSummary :=
  let recs := contentCollect files
  let st := contentPersist s recs
  (st.store, ⟨recs.length, st.dup, st.ins, st.cats.length, st.tp⟩)

/-- Persistence loop with injected storage faults, mirroring the error
returns of handlers.go lines 117-143.  `f k = true` means the `k`-th
database round trip fails; each row consumes one step for its
existence query and, when it is inserted, one more for the insert.
An error return leaves the function before `tx.Commit`. -/
def contentTxLoop (f : Nat → Bool) (k : Nat) (st : PersistSt) :
    List PriceRec → Except Unit (PersistSt × Nat)
  | [] => .ok (st, k)
  | r :: rest =>
    if f k then .error ()
    else if existsMatch st.store r then
      contentTxLoop f (k + 1) { st with dup := st.dup + 1 } rest
    else if f (k + 1) then .error ()
    else
      contentTxLoop f (k + 2)
        { store := st.store ++ [r], dup := st.dup, ins := st.ins + 1,
          cats := catsAdd st.cats r.category, tp := decAdd st.tp r.price } rest

/-- The transactional writer of handlers.go lines 105-156 with injected
faults: step 0 is `db.Begin`, the loop follows, and the step after the
loop is `tx.Commit`.  Every error path returns before the commit, so
the deferred `tx.Rollback` discards the transaction's writes and the
durable store stays as it was; the response is the error (`none`). -/
def contentTx (f : Nat → Bool) (s : List PriceRec) (recs : List PriceRec) :
    List PriceRec × Option UploadSummary :=
  if f 0 then (s, none)
  else
    match contentTxLoop f 1 ⟨s, 0, 0, [], decZero⟩ recs with
    | .error _ => (s, none)
    | .ok (st, k) =>
      if f k then (s, none)
      else (st.store, some ⟨recs.length, st.dup, st.ins, st.cats.length, st.tp⟩)

/-! ## Identifier-keyed variant (`src/main.go`) -/

/-- A row of the `prices` table as the identifier-keyed variant stores
it (schema in main.go lines 66-79: integer primary key `id`, name,
category, DECIMAL price, DATE create_date). -/
structure DbRow where
  id : Int
  name : String
  category : String
  price : Dec
  createDate : Date
deriving DecidableEq, Repr

/-- An entry of `recordsToInsert` (main.go lines 262-268): the raw
`record[0]` and `record[3]` strings are kept, name/category/date are
kept trimmed. -/
structure IdentRec where
  idRaw : String
  name : String
  category : String
  priceRaw : String
  dateStr : String
deriving DecidableEq, Repr

/-- Row validation of the identifier-keyed variant, main.go lines
221-241 (run after the 5-column check): trimmed identifier parses as an
integer, trimmed price parses and is strictly positive, trimmed date
parses, trimmed name and category are non-empty.  Returns the parsed
identifier together with the `recordsToInsert` entry built on lines
262-268. -/
def identParseRow (r : List String) : Option (Int × IdentRec) :=
  match atoi (trimSpace (r.getD 0 "")) with
  | none => none
  | some id =>
    match parseFloatDec (trimSpace (r.getD 3 "")) with
    | none => none
    | some price =>
      if decLe price decZero then none
      else
        match parseDate (trimSpace (r.getD 4 "")) with
        | none => none
        | some _ =>
          let name := trimSpace (r.getD 1 "")
          let category := trimSpace (r.getD 2 "")
          if name = "" ∨ category = "" then none
          else some (id, ⟨r.getD 0 "", name, category, r.getD 3 "", trimSpace (r.getD 4 "")⟩)

/-- State of the fused validation/deduplication loop of main.go lines
106-270: `totalCount`, `duplicatesCount`, `seenIDs`, `recordsToInsert`.
(The batch-local `categories` map collected there is never read by the
response, which uses store-wide statistics, so it is omitted.) -/
structure IdentSt where
  tc : Nat
  dup : Nat
  seen : List Int
  queue : List IdentRec
deriving DecidableEq, Repr

/-- The per-file row loop of main.go lines 210-269: skip index 0; skip
rows with fewer than 5 columns without counting them; count every other
row in `totalCount`; validate; then deduplicate first against `seenIDs`
and then against the live store (`SELECT EXISTS ... WHERE id = $1`). -/
def identRowsLoop (store : List DbRow) (st : IdentSt) (i : Nat) :
    List (List String) → IdentSt
  | [] => st
  | r :: rest =>
    if i = 0 then identRowsLoop store st (i + 1) rest
    else if r.length < 5 then identRowsLoop store st (i + 1) rest
    else
      match identParseRow r with
      | none => identRowsLoop store { st with tc := st.tc + 1 } (i + 1) rest
      | some (id, rec) =>
        if st.seen.contains id then
          identRowsLoop store { st with tc := st.tc + 1, dup := st.dup + 1 } (i + 1) rest
        else if store.any (fun x => x.id = id) then
          identRowsLoop store { st with tc := st.tc + 1, dup := st.dup + 1 } (i + 1) rest
        else
          identRowsLoop store
            { st with tc := st.tc + 1, seen := st.seen ++ [id], queue := st.queue ++ [rec] }
            (i + 1) rest

/-- The same loop without the one-shot header skip: used to state
characterisation lemmas over the concatenated data rows. -/
def identFlat (store : List DbRow) (st : IdentSt) : List (List String) → IdentSt
  | [] => st
  | r :: rest =>
    if r.length < 5 then identFlat store st rest
    else
      match identParseRow r with
      | none => identFlat store { st with tc := st.tc + 1 } rest
      | some (id, rec) =>
        if st.seen.contains id then
          identFlat store { st with tc := st.tc + 1, dup := st.dup + 1 } rest
        else if store.any (fun x => x.id = id) then
          identFlat store { st with tc := st.tc + 1, dup := st.dup + 1 } rest
        else
          identFlat store
            { st with tc := st.tc + 1, seen := st.seen ++ [id], queue := st.queue ++ [rec] }
            rest

/-- Validation/deduplication over all CSV files of the batch (main.go
lines 198-270): the state is threaded across files, each starting at
row index 0. -/
def identCollect (store : List DbRow) (files : List (List (List String))) : IdentSt :=
  files.foldl (fun st f => identRowsLoop store st 0 f) ⟨0, 0, [], []⟩

/-- The row actually passed to `INSERT` (main.go lines 272-277): the
identifier and price are re-parsed from the RAW strings with the error
ignored, so a failed re-parse silently yields the zero value. -/
def toDbRow (rec : IdentRec) : DbRow :=
  ⟨(atoi rec.idRaw).getD 0, rec.name, rec.category,
    (parseFloatDec rec.priceRaw).getD decZero, (parseDate rec.dateStr).getD ⟨1, 1, 1⟩⟩

/-- The best-effort insert loop of main.go lines 272-281: each insert
runs outside any transaction; a failed insert (primary-key conflict)
just increments `duplicatesCount` and processing continues. -/
def identInsertLoop (store : List DbRow) (dup : Nat) : List IdentRec → List DbRow × Nat
  | [] => (store, dup)
  | rec :: rest =>
    let row := toDbRow rec
    if store.any (fun x => x.id = row.id) then identInsertLoop store (dup + 1) rest
    else identInsertLoop (store ++ [row]) dup rest

/-- `COUNT(DISTINCT category)` over the store. -/
def storeCategories (s : List DbRow) : Nat := ((s.map (fun r => r.category)).dedup).length

/-- `COALESCE(SUM(price), 0)` over the store. -/
def storePriceSum (s : List DbRow) : Dec := (s.map (fun r => r.price)).foldl decAdd decZero

/-- The identifier-keyed upload on already-decoded CSV rows (main.go
lines 106-299): fused validation/deduplication, best-effort inserts,
then the summary whose `total_items`, `total_categories` and
`total_price` are store-wide aggregates (main.go line 287). -/
def identUpload (s : List DbRow) (files : List (List (List String))) :
    List DbRow × UploadSummary :=
  let st := identCollect s files
  let (s2, dup2) := identInsertLoop s st.dup st.queue
  (s2, ⟨st.tc, dup2, s2.length, storeCategories s2, storePriceSum s2⟩)

/-! ## Archive extractor (`extractCSVFiles`, handlers.go lines 270-337) -/

/-- `p` is a leading segment of `s`. -/
def listPre : List Char → List Char → Bool
  | [], _ => true
  | _ :: _, [] => false
  | p :: ps, c :: cs => p = c && listPre ps cs

/-- Model of Go `strings.HasPrefix`. -/
def strHasPre (s pat : String) : Bool := listPre pat.toList s.toList

/-- Model of Go `strings.HasSuffix`. -/
def strHasSuf (s pat : String) : Bool := listPre pat.toList.reverse s.toList.reverse

/-- Model of Go `strings.ToLower` on ASCII names. -/
def lowerStr (s : String) : String := String.mk (s.toList.map Char.toLower)

/-- Model of Go `path/filepath.Base`: empty path gives `"."`; trailing
slashes are dropped; all-slashes gives `"/"`; otherwise the last
component. -/
def baseName (s : String) : String :=
  if s.toList.isEmpty then "."
  else
    let r := s.toList.reverse.dropWhile (fun c => c = '/')
    if r.isEmpty then "/" else String.mk ((r.takeWhile (fun c => c ≠ '/')).reverse)

/-- One step of the tar iteration (handlers.go lines 275-304): either
`tarReader.Next` fails with a non-EOF error (`corrupt`), or it yields a
header (name, regular-file flag, declared size) together with the entry
bytes and whether reading them fails.  The end of the list is EOF. -/
inductive ArcStep where
  | corrupt : ArcStep
  | entry (name : String) (isReg : Bool) (size : Nat) (content : List Char) (readErr : Bool)
deriving DecidableEq, Repr

/-- A zip archive entry (handlers.go lines 311-333); `readErr` covers a
failure of `file.Open` or of reading its stream. -/
structure ZipEntry where
  name : String
  content : List Char
  readErr : Bool
deriving DecidableEq, Repr

/-- An extracted member, `csvFileData` (handlers.go lines 265-268). -/
structure CsvFileData where
  name : String
  content : List Char
deriving DecidableEq, Repr

/-- Whether a tar entry is consumed (handlers.go lines 284-295): a
regular file whose base name does not start with `._` and whose full
name, lower-cased, ends with `.csv`. -/
def entrySelected (name : String) (isReg : Bool) : Bool :=
  isReg && !(strHasPre (baseName name) "._") && strHasSuf (lowerStr name) ".csv"

/-- Same selection for a zip entry (lines 312-318; no type flag). -/
def zipSelected (name : String) : Bool := entrySelected name true

/-- The tar branch of `extractCSVFiles` (lines 273-304): any
`tarReader.Next` error or read error of a selected entry makes the
whole function return nil; a selected entry contributes its name and
exactly `header.Size` bytes of content (`io.LimitReader`). -/
def extractTarLoop (acc : List CsvFileData) : List ArcStep → Option (List CsvFileData)
  | [] => some acc
  | .corrupt :: _ => none
  | .entry n isReg sz content readErr :: rest =>
    if !isReg then extractTarLoop acc rest
    else if strHasPre (baseName n) "._" then extractTarLoop acc rest
    else if !(strHasSuf (lowerStr n) ".csv") then extractTarLoop acc rest
    else if readErr then none
    else extractTarLoop (acc ++ [⟨n, content.take sz⟩]) rest

/-- The zip branch of `extractCSVFiles` (lines 305-334). -/
def extractZipLoop (acc : List CsvFileData) : List ZipEntry → Option (List CsvFileData)
  | [] => some acc
  | e :: rest =>
    if strHasPre (baseName e.name) "._" then extractZipLoop acc rest
    else if !(strHasSuf (lowerStr e.name) ".csv") then extractZipLoop acc rest
    else if e.readErr then none
    else extractZipLoop (acc ++ [⟨e.name, e.content⟩]) rest

/-- The archive input: a tar step stream, or a zip whose `zip.NewReader`
either failed (`none`) or produced an entry list. -/
inductive ArcInput where
  | tar (steps : List ArcStep)
  | zip (arc : Option (List ZipEntry))
deriving DecidableEq, Repr

/-- `extractCSVFiles` (handlers.go lines 270-337).  In Go the
accumulator starts as the nil slice and `return csvFiles` returns that
very nil slice when nothing was appended, the same value the error
paths return; `none` here therefore stands for Go's nil result, which a
successful extraction with zero selected entries also produces. -/
def extractCSVFiles : ArcInput → Option (List CsvFileData)
  | .tar steps =>
    match extractTarLoop [] steps with
    | none => none
    | some files => if files.isEmpty then none else some files
  | .zip none => none
  | .zip (some entries) =>
    match extractZipLoop [] entries with
    | none => none
    | some files => if files.isEmpty then none else some files

/-- The content-keyed `uploadPrices` from extraction onward (handlers.go
lines 52-157): a nil result of `extractCSVFiles` aborts with an error
before anything is parsed or persisted (lines 52-56); otherwise every
member is CSV-decoded (an error aborts before the transaction), and
the decoded row lists are processed.  `decode` abstracts
`csv.Reader.ReadAll`. -/
def uploadPricesArc (s : List PriceRec) (arc : ArcInput)
    (decode : List Char → Option (List (List String))) :
    List PriceRec × Option UploadSummary :=
  match extractCSVFiles arc with
  | none => (s, none)
  | some files =>
    match files.mapM (fun f => decode f.content) with
    | none => (s, none)
    | some rowFiles =>
      let (s2, sum) := contentUpload s rowFiles
      (s2, some sum)

/-! ## Export handler (`getPrices`, handlers.go lines 159-199) -/

/-- The conjuncts appended to `WHERE 1=1` (handlers.go lines 169-191):
one inclusive predicate per present query parameter, in source order.
The SQL comparison operators are read relationally (`create_date >= $k`
holds of a row when the bound is `dateLe` the row's date, and so on);
an absent parameter (empty query string) contributes nothing. -/
def buildConds (sd ed : Option Date) (mn mx : Option Dec) : List (DbRow → Bool) :=
  let q1 : List (DbRow → Bool) :=
    match sd with
    | some d => [fun (r : DbRow) => dateLe d r.createDate]
    | none => []
  let q2 : List (DbRow → Bool) :=
    match ed with
    | some d => q1 ++ [fun (r : DbRow) => dateLe r.createDate d]
    | none => q1
  let q3 : List (DbRow → Bool) :=
    match mn with
    | some p => q2 ++ [fun (r : DbRow) => decLe p r.price]
    | none => q2
  let q4 : List (DbRow → Bool) :=
    match mx with
    | some p => q3 ++ [fun (r : DbRow) => decLe r.price p]
    | none => q3
  q4

/-- Insertion into a list kept ordered by `id`. -/
def insById (r : DbRow) : List DbRow → List DbRow
  | [] => [r]
  | x :: xs => if r.id ≤ x.id then r :: x :: xs else x :: insById r xs

/-- `ORDER BY id` (handlers.go line 193), modelled as insertion sort. -/
def sortById (l : List DbRow) : List DbRow := l.foldr insById []

/-- The rows produced by the `getPrices` query (handlers.go lines
165-199): the store rows satisfying every built conjunct, ordered by
identifier. -/
def getPricesRows (s : List DbRow) (sd ed : Option Date) (mn mx : Option Dec) : List DbRow :=
  sortById (s.filter (fun r => (buildConds sd ed mn mx).all (fun c => c r)))

/-- Written from the spec's words, for comparison with the code: a
record passes the export filter iff every present bound holds of it
inclusively, and absent bounds impose no constraint. -/
def specIncluded (sd ed : Option Date) (mn mx : Option Dec) (r : DbRow) : Bool :=
  (match sd with | some d => dateLe d r.createDate | none => true) &&
  (match ed with | some d => dateLe r.createDate d | none => true) &&
  (match mn with | some p => decLe p r.price | none => true) &&
  (match mx with | some p => decLe r.price p | none => true)

/-! ## Characterisation functions used by the theorems -/

/-- The sublist of a batch actually inserted by the content-keyed
persistence loop, starting from store `s`. -/
def insRows (s : List PriceRec) : List PriceRec → List PriceRec
  | [] => []
  | r :: rest => if existsMatch s r then insRows s rest else r :: insRows (s ++ [r]) rest

/-- How many records of `l` are equal to `k` on the content dedup key
(the comparison the existence check performs). -/
def keyCountC (l : List PriceRec) (k : PriceRec) : Nat :=
  l.countP (fun x => recMatches x k)

/-- The `categories` set the persistence loop builds from a list of
inserted records. -/
def insCats (l : List PriceRec) : List String :=
  l.foldl (fun c r => catsAdd c r.category) []

/-- The `totalPrice` accumulator over a list of inserted records. -/
def insPriceSum (l : List PriceRec) : Dec :=
  l.foldl (fun t r => decAdd t r.price) decZero

/-- Acceptance of one data row in the identifier-keyed variant: the
5-column gate followed by `identParseRow`. -/
def identRowValid (r : List String) : Option (Int × IdentRec) :=
  if r.length < 5 then none else identParseRow r

/-- All data rows of a batch that pass validation, with their parsed
identifiers, in order. -/
def validPairs (rows : List (List String)) : List (Int × IdentRec) :=
  rows.filterMap identRowValid

/-- The queue the identifier-keyed loop builds: the first valid
occurrence of each identifier not already seen and not already in the
store. -/
def newEntries (store : List DbRow) (seen : List Int) :
    List (List String) → List (Int × IdentRec)
  | [] => []
  | r :: rest =>
    match identRowValid r with
    | none => newEntries store seen rest
    | some (id, rec) =>
      if seen.contains id || store.any (fun x => x.id = id) then newEntries store seen rest
      else (id, rec) :: newEntries store (seen ++ [id]) rest

/-- Duplicates tallied by the identifier-keyed validation loop. -/
def dupDelta (store : List DbRow) (seen : List Int) : List (List String) → Nat
  | [] => 0
  | r :: rest =>
    match identRowValid r with
    | none => dupDelta store seen rest
    | some (id, _) =>
      if seen.contains id || store.any (fun x => x.id = id) then 1 + dupDelta store seen rest
      else dupDelta store (seen ++ [id]) rest

/-- `totalCount` tallied by the identifier-keyed validation loop:
every data row with at least 5 columns, accepted or not. -/
def tcDelta (rows : List (List String)) : Nat :=
  rows.countP (fun r => decide (5 ≤ r.length))

/-- How many rows of the store carry identifier `k`. -/
def idCount (s : List DbRow) (k : Int) : Nat :=
  s.countP (fun x => decide (x.id = k))

/-- The identifier-keyed uniqueness invariant: stored identifiers are
pairwise distinct (what the `PRIMARY KEY (id)` constraint enforces). -/
def idsNodup (s : List DbRow) : Prop := (s.map (fun r => r.id)).Nodup

/-- A tar step that does not abort extraction. -/
def stepOk : ArcStep → Bool
  | .corrupt => false
  | .entry _ _ _ _ readErr => !readErr

/-- A structurally readable tar stream: no `tarReader.Next` error and
no entry whose content read fails. -/
abbrev wellFormedTar (steps : List ArcStep) : Prop := ∀ st ∈ steps, stepOk st = true

/-- The member a tar step contributes when the archive is readable. -/
def tarSelect : ArcStep → Option CsvFileData
  | .corrupt => none
  | .entry n isReg sz content _ =>
    if entrySelected n isReg then some ⟨n, content.take sz⟩ else none

/-- The member a zip entry contributes when the archive is readable. -/
def zipSelect (e : ZipEntry) : Option CsvFileData :=
  if zipSelected e.name then some ⟨e.name, e.content⟩ else none

/-! ## Lemmas: content-keyed parsing -/

theorem contentRowsLoop_pos (rows : List (List String)) :
    ∀ (acc : List PriceRec) (i : Nat), i ≠ 0 →
      contentRowsLoop acc i rows = acc ++ rows.filterMap parseRowContent := by
  induction rows with
  | nil => intro acc i _; simp [contentRowsLoop]
  | cons r rest ih =>
    intro acc i hi
    simp only [contentRowsLoop, if_neg hi]
    cases h : parseRowContent r with
    | none =>
      simp only [List.filterMap_cons, h]
      exact ih _ _ (Nat.succ_ne_zero i)
    | some p =>
      simp only [List.filterMap_cons, h]
      rw [ih _ _ (Nat.succ_ne_zero i), List.append_assoc]
      rfl

theorem contentRowsLoop_zero (rows : List (List String)) (acc : List PriceRec) :
    contentRowsLoop acc 0 rows = acc ++ (rows.drop 1).filterMap parseRowContent := by
  cases rows with
  | nil => simp [contentRowsLoop]
  | cons r rest =>
    simp only [contentRowsLoop, if_pos rfl]
    rw [contentRowsLoop_pos rest acc 1 one_ne_zero]
    rfl

theorem contentCollect_aux (files : List (List (List String))) :
    ∀ acc : List PriceRec,
      files.foldl (fun a f => contentRowsLoop a 0 f) acc =
        acc ++ files.flatMap (fun f => (f.drop 1).filterMap parseRowContent) := by
  induction files with
  | nil => intro acc; simp
  | cons f rest ih =>
    intro acc
    simp only [List.foldl_cons, List.flatMap_cons]
    rw [contentRowsLoop_zero, ih, List.append_assoc]

/-- The header row of every file is dropped unconditionally and every
other row contributes independently through `parseRowContent`. -/
theorem contentCollect_eq (files : List (List (List String))) :
    contentCollect files =
      files.flatMap (fun f => (f.drop 1).filterMap parseRowContent) := by
  unfold contentCollect
  rw [contentCollect_aux]
  rfl

/-! ## Lemmas: content-keyed persistence -/

theorem contentPersistLoop_store (recs : List PriceRec) :
    ∀ st : PersistSt, (contentPersistLoop st recs).store = st.store ++ insRows st.store recs := by
  induction recs with
  | nil => intro st; simp [contentPersistLoop, insRows]
  | cons r rest ih =>
    intro st
    obtain ⟨s, d, i, c, t⟩ := st
    cases h : existsMatch s r with
    | true => simp [contentPersistLoop, insRows, h, ih]
    | false =>
      simp only [contentPersistLoop, insRows, h, if_neg Bool.false_ne_true,
        Bool.false_eq_true, if_false]
      rw [ih]
      simp [List.append_assoc]

theorem contentPersistLoop_ins (recs : List PriceRec) :
    ∀ st : PersistSt, (contentPersistLoop st recs).ins = st.ins + (insRows st.store recs).length := by
  induction recs with
  | nil => intro st; simp [contentPersistLoop, insRows]
  | cons r rest ih =>
    intro st
    obtain ⟨s, d, i, c, t⟩ := st
    cases h : existsMatch s r with
    | true => simp [contentPersistLoop, insRows, h, ih]
    | false =>
      simp only [contentPersistLoop, insRows, h, Bool.false_eq_true, if_false]
      rw [ih]
      simp
      omega

theorem contentPersistLoop_dup (recs : List PriceRec) :
    ∀ st : PersistSt,
      (contentPersistLoop st recs).dup + (insRows st.store recs).length =
        st.dup + recs.length := by
  induction recs with
  | nil => intro st; simp [contentPersistLoop, insRows]
  | cons r rest ih =>
    intro st
    obtain ⟨s, d, i, c, t⟩ := st
    cases h : existsMatch s r with
    | true =>
      simp only [contentPersistLoop, insRows, h, if_true, List.length_cons]
      have := ih ⟨s, d + 1, i, c, t⟩
      simp at this ⊢
      omega
    | false =>
      simp only [contentPersistLoop, insRows, h, Bool.false_eq_true, if_false,
        List.length_cons]
      have := ih ⟨s ++ [r], d, i + 1, catsAdd c r.category, decAdd t r.price⟩
      simp at this ⊢
      omega

theorem contentPersistLoop_cats (recs : List PriceRec) :
    ∀ st : PersistSt,
      (contentPersistLoop st recs).cats =
        (insRows st.store recs).foldl (fun cs r => catsAdd cs r.category) st.cats := by
  induction recs with
  | nil => intro st; simp [contentPersistLoop, insRows]
  | cons r rest ih =>
    intro st
    obtain ⟨s, d, i, c, t⟩ := st
    cases h : existsMatch s r with
    | true => simp [contentPersistLoop, insRows, h, ih]
    | false =>
      simp only [contentPersistLoop, insRows, h, Bool.false_eq_true, if_false]
      rw [ih]
      rfl

theorem contentPersistLoop_tp (recs : List PriceRec) :
    ∀ st : PersistSt,
      (contentPersistLoop st recs).tp =
        (insRows st.store recs).foldl (fun a r => decAdd a r.price) st.tp := by
  induction recs with
  | nil => intro st; simp [contentPersistLoop, insRows]
  | cons r rest ih =>
    intro st
    obtain ⟨s, d, i, c, t⟩ := st
    cases h : existsMatch s r with
    | true => simp [contentPersistLoop, insRows, h, ih]
    | false =>
      simp only [contentPersistLoop, insRows, h, Bool.false_eq_true, if_false]
      rw [ih]
      rfl

/-! ## Lemmas: the content dedup key -/

theorem decEquiv_refl (a : Dec) : decEquiv a a = true := by
  simp [decEquiv]

theorem decEquiv_symm {a b : Dec} (h : decEquiv a b = true) : decEquiv b a = true := by
  simp [decEquiv] at h ⊢
  omega

theorem decEquiv_trans {a m b : Dec} (hm : 0 < m.den)
    (h1 : decEquiv a m = true) (h2 : decEquiv m b = true) : decEquiv a b = true := by
  simp only [decEquiv, decide_eq_true_eq] at h1 h2 ⊢
  have hz : (m.den : Int) ≠ 0 := by
    have : m.den ≠ 0 := by omega
    exact_mod_cast this
  apply mul_right_cancel₀ hz
  linear_combination (b.den : Int) * h1 + (a.den : Int) * h2

theorem recMatches_refl (r : PriceRec) : recMatches r r = true := by
  simp [recMatches, decEquiv_refl]

theorem recMatches_symm {a b : PriceRec} (h : recMatches a b = true) :
    recMatches b a = true := by
  simp only [recMatches, Bool.and_eq_true, decide_eq_true_eq] at h ⊢
  exact ⟨⟨⟨h.1.1.1.symm, h.1.1.2.symm⟩, decEquiv_symm h.1.2⟩, h.2.symm⟩

theorem recMatches_trans {a m b : PriceRec} (hm : 0 < m.price.den)
    (h1 : recMatches a m = true) (h2 : recMatches m b = true) :
    recMatches a b = true := by
  simp only [recMatches, Bool.and_eq_true, decide_eq_true_eq] at h1 h2 ⊢
  exact ⟨⟨⟨h1.1.1.1.trans h2.1.1.1, h1.1.1.2.trans h2.1.1.2⟩,
    decEquiv_trans hm h1.1.2 h2.1.2⟩, h1.2.trans h2.2⟩

theorem existsMatch_append (s t : List PriceRec) (r : PriceRec) :
    existsMatch (s ++ t) r = (existsMatch s r || existsMatch t r) := by
  simp [existsMatch]

theorem existsMatch_mono {s : List PriceRec} (t : List PriceRec) {r : PriceRec}
    (h : existsMatch s r = true) : existsMatch (s ++ t) r = true := by
  rw [existsMatch_append, h, Bool.true_or]

theorem existsMatch_iff (s : List PriceRec) (r : PriceRec) :
    existsMatch s r = true ↔ ∃ x ∈ s, recMatches x r = true := by
  simp [existsMatch]

theorem keyCountC_append (l1 l2 : List PriceRec) (k : PriceRec) :
    keyCountC (l1 ++ l2) k = keyCountC l1 k + keyCountC l2 k := by
  simp [keyCountC, List.countP_append]

theorem keyCountC_pos_iff (s : List PriceRec) (k : PriceRec) :
    0 < keyCountC s k ↔ ∃ x ∈ s, recMatches x k = true := by
  simp [keyCountC, List.countP_pos_iff]

theorem existsMatch_false_count {s : List PriceRec} {k : PriceRec}
    (h : existsMatch s k = false) : keyCountC s k = 0 := by
  by_contra hne
  have : 0 < keyCountC s k := Nat.pos_of_ne_zero hne
  rw [keyCountC_pos_iff] at this
  rw [(existsMatch_iff s k).mpr this] at h
  cases h

/-! ## Lemmas: `insRows` -/

theorem insRows_length_le (recs : List PriceRec) :
    ∀ s, (insRows s recs).length ≤ recs.length := by
  induction recs with
  | nil => intro s; simp [insRows]
  | cons r rest ih =>
    intro s
    cases h : existsMatch s r with
    | true =>
      simp only [insRows, h, if_true, List.length_cons]
      exact (ih s).trans (Nat.le_succ _)
    | false =>
      simp only [insRows, h, Bool.false_eq_true, if_false, List.length_cons]
      exact Nat.succ_le_succ (ih (s ++ [r]))

theorem insRows_length_eq (recs : List PriceRec) :
    ∀ s, (insRows s recs).length = recs.length → insRows s recs = recs := by
  induction recs with
  | nil => intro s _; simp [insRows]
  | cons r rest ih =>
    intro s hlen
    cases h : existsMatch s r with
    | true =>
      exfalso
      rw [insRows, h] at hlen
      simp at hlen
      have := insRows_length_le rest s
      omega
    | false =>
      simp [insRows, h] at hlen ⊢
      exact ih _ hlen

theorem insRows_keyCount_zero (recs : List PriceRec) :
    ∀ s k, 0 < k.price.den → existsMatch s k = true →
      keyCountC (insRows s recs) k = 0 := by
  induction recs with
  | nil => intro s k _ _; simp [insRows, keyCountC]
  | cons r rest ih =>
    intro s k hk hex
    cases h : existsMatch s r with
    | true =>
      rw [insRows, h, if_pos rfl]
      exact ih s k hk hex
    | false =>
      have hrk : recMatches r k = false := by
        by_contra hne
        have hrk : recMatches r k = true := by
          cases hh : recMatches r k
          · exact absurd hh hne
          · rfl
        obtain ⟨x, hx, hxk⟩ := (existsMatch_iff s k).mp hex
        have hxr : recMatches x r = true :=
          recMatches_trans hk hxk (recMatches_symm hrk)
        have : existsMatch s r = true := (existsMatch_iff s r).mpr ⟨x, hx, hxr⟩
        rw [this] at h
        cases h
      simp only [insRows, h, Bool.false_eq_true, if_false]
      rw [keyCountC, List.countP_cons, hrk]
      have h0 := ih (s ++ [r]) k hk (existsMatch_mono [r] hex)
      rw [keyCountC] at h0
      simp [h0]

theorem insRows_keyCount_fresh (recs : List PriceRec) :
    ∀ s k, 0 < k.price.den → (∀ r ∈ recs, 0 < r.price.den) →
      existsMatch s k = false → 1 ≤ keyCountC recs k →
      keyCountC (insRows s recs) k = 1 := by
  induction recs with
  | nil => intro s k _ _ _ hocc; simp [keyCountC] at hocc
  | cons r rest ih =>
    intro s k hk hb hf hocc
    cases hm : recMatches r k with
    | false =>
      have hocc' : 1 ≤ keyCountC rest k := by
        rw [keyCountC, List.countP_cons, hm] at hocc
        simpa [keyCountC] using hocc
      cases h : existsMatch s r with
      | true =>
        simp only [insRows, h, if_pos rfl]
        exact ih s k hk (fun x hx => hb x (List.mem_cons_of_mem r hx)) hf hocc'
      | false =>
        simp only [insRows, h, Bool.false_eq_true, if_false]
        rw [keyCountC, List.countP_cons, hm]
        have hf' : existsMatch (s ++ [r]) k = false := by
          rw [existsMatch_append, hf]
          simp [existsMatch, hm]
        have := ih (s ++ [r]) k hk (fun x hx => hb x (List.mem_cons_of_mem r hx)) hf' hocc'
        rw [keyCountC] at this
        simp [this]
    | true =>
      cases h : existsMatch s r with
      | true =>
        exfalso
        obtain ⟨x, hx, hxr⟩ := (existsMatch_iff s r).mp h
        have hrden : 0 < r.price.den := hb r (List.mem_cons_self r rest)
        have hxk : recMatches x k = true := recMatches_trans hrden hxr hm
        have : existsMatch s k = true := (existsMatch_iff s k).mpr ⟨x, hx, hxk⟩
        rw [this] at hf
        cases hf
      | false =>
        simp only [insRows, h, Bool.false_eq_true, if_false]
        rw [keyCountC, List.countP_cons, hm]
        have hex' : existsMatch (s ++ [r]) k = true := by
          rw [existsMatch_append]
          simp [existsMatch, hm]
        have h0 := insRows_keyCount_zero rest (s ++ [r]) k hk hex'
        rw [keyCountC] at h0
        simp [h0]

theorem insRows_unique (recs : List PriceRec) :
    ∀ s, (∀ k, 0 < k.price.den → keyCountC s k ≤ 1) →
      ∀ k, 0 < k.price.den → keyCountC (s ++ insRows s recs) k ≤ 1 := by
  induction recs with
  | nil => intro s hs k hk; simpa [insRows, keyCountC] using hs k hk
  | cons r rest ih =>
    intro s hs k hk
    cases h : existsMatch s r with
    | true =>
      simp only [insRows, h, if_pos rfl]
      exact ih s hs k hk
    | false =>
      simp only [insRows, h, Bool.false_eq_true, if_false]
      rw [List.append_cons]
      apply ih (s ++ [r]) _ k hk
      intro k2 hk2
      rw [keyCountC_append]
      cases hm : recMatches r k2 with
      | false =>
        have : keyCountC [r] k2 = 0 := by simp [keyCountC, hm]
        rw [this]
        simpa using hs k2 hk2
      | true =>
        have hz : keyCountC s k2 = 0 := by
          by_contra hnz
          obtain ⟨x, hx, hxk⟩ := (keyCountC_pos_iff s k2).mp (Nat.pos_of_ne_zero hnz)
          have hxr : recMatches x r = true :=
            recMatches_trans hk2 hxk (recMatches_symm hm)
          have : existsMatch s r = true := (existsMatch_iff s r).mpr ⟨x, hx, hxr⟩
          rw [this] at h
          cases h
        have h1 : keyCountC [r] k2 = 1 := by simp [keyCountC, hm]
        omega

theorem contentPersistLoop_mem (recs : List PriceRec) :
    ∀ st : PersistSt, ∀ r ∈ recs,
      existsMatch (contentPersistLoop st recs).store r = true := by
  induction recs with
  | nil => intro st r hr; cases hr
  | cons a rest ih =>
    intro st r hr
    obtain ⟨s, d, i, c, t⟩ := st
    rcases List.mem_cons.mp hr with rfl | hr'
    · cases h : existsMatch s r with
      | true =>
        simp only [contentPersistLoop, h, eq_self_iff_true, ite_true]
        rw [contentPersistLoop_store]
        exact existsMatch_mono _ h
      | false =>
        simp only [contentPersistLoop, h, Bool.false_eq_true, if_false]
        rw [contentPersistLoop_store]
        apply existsMatch_mono
        rw [existsMatch_append]
        simp [existsMatch, recMatches_refl]
    · cases h : existsMatch s a with
      | true =>
        simp only [contentPersistLoop, h, eq_self_iff_true, ite_true]
        exact ih _ r hr'
      | false =>
        simp only [contentPersistLoop, h, Bool.false_eq_true, if_false]
        exact ih _ r hr'

theorem contentPersistLoop_allDup (recs : List PriceRec) :
    ∀ st : PersistSt, (∀ r ∈ recs, existsMatch st.store r = true) →
      contentPersistLoop st recs = { st with dup := st.dup + recs.length } := by
  induction recs with
  | nil => intro st _; simp [contentPersistLoop]
  | cons a rest ih =>
    intro st hall
    obtain ⟨s, d, i, c, t⟩ := st
    have h : existsMatch s a = true := hall a (List.mem_cons_self a rest)
    simp only [contentPersistLoop, h, eq_self_iff_true, ite_true]
    rw [ih ⟨s, d + 1, i, c, t⟩ (fun r hr => hall r (List.mem_cons_of_mem a hr))]
    simp
    omega

/-! ## Lemmas: parsed prices have positive denominators -/

theorem parseFloatDec_denPos {s : String} {v : Dec} (h : parseFloatDec s = some v) :
    0 < v.den := by
  simp only [parseFloatDec] at h
  split at h
  · cases h
  · split at h
    · cases h
    · rename_i esgn emag _
      cases h
      split
      · positivity
      · positivity

theorem parseRowContent_denPos {row : List String} {rec : PriceRec}
    (h : parseRowContent row = some rec) : 0 < rec.price.den := by
  simp only [parseRowContent] at h
  split at h
  · cases h
  · split at h
    · cases h
    · split at h
      · cases h
      · rename_i price hp
        split at h
        · cases h
        · split at h
          · cases h
          · cases h
            exact parseFloatDec_denPos hp

theorem contentCollect_denPos {files : List (List (List String))} :
    ∀ r ∈ contentCollect files, 0 < r.price.den := by
  intro r hr
  rw [contentCollect_eq] at hr
  obtain ⟨f, _, hrf⟩ := List.mem_flatMap.mp hr
  obtain ⟨row, _, hrow⟩ := List.mem_filterMap.mp hrf
  exact parseRowContent_denPos hrow

/-! ## Lemmas: transactional writer -/

theorem contentTxLoop_noFault (recs : List PriceRec) :
    ∀ (k : Nat) (st : PersistSt), ∃ k2,
      contentTxLoop (fun _ => false) k st recs = .ok (contentPersistLoop st recs, k2) := by
  induction recs with
  | nil => intro k st; exact ⟨k, rfl⟩
  | cons r rest ih =>
    intro k st
    cases h : existsMatch st.store r with
    | true =>
      obtain ⟨k2, hk⟩ := ih (k + 1) { st with dup := st.dup + 1 }
      refine ⟨k2, ?_⟩
      simp only [contentTxLoop, contentPersistLoop, h, eq_self_iff_true, ite_true,
        Bool.false_eq_true, if_false]
      exact hk
    | false =>
      obtain ⟨k2, hk⟩ := ih (k + 2)
        { store := st.store ++ [r], dup := st.dup, ins := st.ins + 1,
          cats := catsAdd st.cats r.category, tp := decAdd st.tp r.price }
      refine ⟨k2, ?_⟩
      simp only [contentTxLoop, contentPersistLoop, h, Bool.false_eq_true, if_false]
      exact hk

theorem contentTx_noFault (s recs : List PriceRec) :
    contentTx (fun _ => false) s recs =
      ((contentPersist s recs).store,
        some ⟨recs.length, (contentPersist s recs).dup, (contentPersist s recs).ins,
          (contentPersist s recs).cats.length, (contentPersist s recs).tp⟩) := by
  unfold contentTx
  simp only [Bool.false_eq_true, if_false]
  obtain ⟨k2, hk⟩ := contentTxLoop_noFault recs 1 ⟨s, 0, 0, [], decZero⟩
  rw [hk]
  rfl

/-! ## Lemmas: identifier-keyed validation loop -/

theorem identRowsLoop_pos (rows : List (List String)) :
    ∀ (store : List DbRow) (st : IdentSt) (i : Nat), i ≠ 0 →
      identRowsLoop store st i rows = identFlat store st rows := by
  induction rows with
  | nil => intro store st i _; rfl
  | cons r rest ih =>
    intro store st i hi
    simp only [identRowsLoop, identFlat, if_neg hi]
    by_cases hlen : r.length < 5
    · simp only [if_pos hlen]
      exact ih store st _ (Nat.succ_ne_zero i)
    · simp only [if_neg hlen]
      cases hp : identParseRow r with
      | none => exact ih store _ _ (Nat.succ_ne_zero i)
      | some p =>
        obtain ⟨id, rec⟩ := p
        cases hs : st.seen.contains id with
        | true =>
          simp only [hs, eq_self_iff_true, ite_true]
          exact ih store _ _ (Nat.succ_ne_zero i)
        | false =>
          simp only [hs, Bool.false_eq_true, if_false]
          cases ha : store.any (fun x => x.id = id) with
          | true =>
            simp only [ha, eq_self_iff_true, ite_true]
            exact ih store _ _ (Nat.succ_ne_zero i)
          | false =>
            simp only [ha, Bool.false_eq_true, if_false]
            exact ih store _ _ (Nat.succ_ne_zero i)

theorem identRowsLoop_zero (rows : List (List String)) (store : List DbRow) (st : IdentSt) :
    identRowsLoop store st 0 rows = identFlat store st (rows.drop 1) := by
  cases rows with
  | nil => rfl
  | cons r rest =>
    simp only [identRowsLoop, if_pos rfl, List.drop_succ_cons, List.drop_zero]
    exact identRowsLoop_pos rest store st 1 one_ne_zero

theorem identFlat_append (xs ys : List (List String)) :
    ∀ (store : List DbRow) (st : IdentSt),
      identFlat store st (xs ++ ys) = identFlat store (identFlat store st xs) ys := by
  induction xs with
  | nil => intro store st; rfl
  | cons r rest ih =>
    intro store st
    simp only [List.cons_append, identFlat]
    by_cases hlen : r.length < 5
    · simp only [if_pos hlen]; exact ih store st
    · simp only [if_neg hlen]
      cases hp : identParseRow r with
      | none => exact ih store _
      | some p =>
        obtain ⟨id, rec⟩ := p
        cases hs : st.seen.contains id with
        | true => simp only [hs, eq_self_iff_true, ite_true]; exact ih store _
        | false =>
          simp only [hs, Bool.false_eq_true, if_false]
          cases ha : store.any (fun x => x.id = id) with
          | true => simp only [ha, eq_self_iff_true, ite_true]; exact ih store _
          | false => simp only [ha, Bool.false_eq_true, if_false]; exact ih store _

theorem identCollect_aux (files : List (List (List String))) :
    ∀ (store : List DbRow) (st : IdentSt),
      files.foldl (fun a f => identRowsLoop store a 0 f) st =
        identFlat store st (files.flatMap (fun f => f.drop 1)) := by
  induction files with
  | nil => intro store st; rfl
  | cons f rest ih =>
    intro store st
    simp only [List.foldl_cons, List.flatMap_cons]
    rw [identRowsLoop_zero, ih, identFlat_append]

theorem identCollect_eq (store : List DbRow) (files : List (List (List String))) :
    identCollect store files =
      identFlat store ⟨0, 0, [], []⟩ (files.flatMap (fun f => f.drop 1)) := by
  unfold identCollect
  rw [identCollect_aux]

theorem identFlat_char (rows : List (List String)) :
    ∀ (store : List DbRow) (st : IdentSt),
      identFlat store st rows =
        ⟨st.tc + tcDelta rows, st.dup + dupDelta store st.seen rows,
         st.seen ++ (newEntries store st.seen rows).map Prod.fst,
         st.queue ++ (newEntries store st.seen rows).map Prod.snd⟩ := by
  induction rows with
  | nil => intro store st; simp [identFlat, tcDelta, dupDelta, newEntries]
  | cons r rest ih =>
    intro store st
    obtain ⟨tc, dup, seen, queue⟩ := st
    by_cases hlen : r.length < 5
    · have hv : identRowValid r = none := by simp [identRowValid, hlen]
      have htc : (decide (5 ≤ r.length)) = false := by
        simp only [decide_eq_false_iff_not]
        omega
      simp only [identFlat, if_pos hlen, ih, tcDelta, List.countP_cons, htc,
        dupDelta, newEntries, hv]
      simp
    · have hv0 : ∀ o, identParseRow r = o → identRowValid r = o := by
        intro o ho; simp [identRowValid, hlen, ho]
      have htc : (decide (5 ≤ r.length)) = true := by
        simp only [decide_eq_true_eq]
        omega
      cases hp : identParseRow r with
      | none =>
        have hv : identRowValid r = none := hv0 none hp
        simp only [identFlat, if_neg hlen, hp, tcDelta, List.countP_cons, htc,
          dupDelta, newEntries, hv, ih]
        simp [IdentSt.mk.injEq]
        all_goals omega
      | some p =>
        obtain ⟨id, rec⟩ := p
        have hv : identRowValid r = some (id, rec) := hv0 _ hp
        cases hs : List.contains seen id with
        | true =>
          simp only [identFlat, if_neg hlen, hp, hs, eq_self_iff_true, ite_true,
            tcDelta, List.countP_cons, htc, dupDelta, newEntries, hv, ih]
          simp [IdentSt.mk.injEq]
          all_goals omega
        | false =>
          cases ha : store.any (fun x => x.id = id) with
          | true =>
            simp only [identFlat, if_neg hlen, hp, hs, Bool.false_eq_true, if_false,
              ha, eq_self_iff_true, ite_true, tcDelta, List.countP_cons, htc,
              dupDelta, newEntries, hv, ih]
            simp [IdentSt.mk.injEq]
            all_goals omega
          | false =>
            simp only [identFlat, if_neg hlen, hp, hs, Bool.false_eq_true, if_false,
              ha, tcDelta, List.countP_cons, htc, dupDelta, newEntries, hv, ih]
            simp [IdentSt.mk.injEq, List.append_assoc]
            all_goals omega

/-! ## Lemmas: `newEntries` -/

theorem validPairs_nil : validPairs [] = [] := rfl

theorem validPairs_cons_none {r : List String} (rest : List (List String))
    (hv : identRowValid r = none) : validPairs (r :: rest) = validPairs rest := by
  simp [validPairs, List.filterMap_cons, hv]

theorem validPairs_cons_some {r : List String} (rest : List (List String))
    {p : Int × IdentRec} (hv : identRowValid r = some p) :
    validPairs (r :: rest) = p :: validPairs rest := by
  simp [validPairs, List.filterMap_cons, hv]

theorem newEntries_cons_none {store : List DbRow} {seen : List Int} {r : List String}
    (rest : List (List String)) (hv : identRowValid r = none) :
    newEntries store seen (r :: rest) = newEntries store seen rest := by
  simp only [newEntries, hv]

theorem newEntries_cons_dup {store : List DbRow} {seen : List Int} {r : List String}
    (rest : List (List String)) {id : Int} {rec : IdentRec}
    (hv : identRowValid r = some (id, rec))
    (hcond : (seen.contains id || store.any fun x => x.id = id) = true) :
    newEntries store seen (r :: rest) = newEntries store seen rest := by
  simp only [newEntries, hv, hcond, eq_self_iff_true, ite_true]

theorem newEntries_cons_new {store : List DbRow} {seen : List Int} {r : List String}
    (rest : List (List String)) {id : Int} {rec : IdentRec}
    (hv : identRowValid r = some (id, rec))
    (hcond : (seen.contains id || store.any fun x => x.id = id) = false) :
    newEntries store seen (r :: rest) =
      (id, rec) :: newEntries store (seen ++ [id]) rest := by
  simp only [newEntries, hv, hcond, Bool.false_eq_true, if_false]

theorem dupDelta_cons_none {store : List DbRow} {seen : List Int} {r : List String}
    (rest : List (List String)) (hv : identRowValid r = none) :
    dupDelta store seen (r :: rest) = dupDelta store seen rest := by
  simp only [dupDelta, hv]

theorem dupDelta_cons_dup {store : List DbRow} {seen : List Int} {r : List String}
    (rest : List (List String)) {id : Int} {rec : IdentRec}
    (hv : identRowValid r = some (id, rec))
    (hcond : (seen.contains id || store.any fun x => x.id = id) = true) :
    dupDelta store seen (r :: rest) = 1 + dupDelta store seen rest := by
  simp only [dupDelta, hv, hcond, eq_self_iff_true, ite_true]

theorem dupDelta_cons_new {store : List DbRow} {seen : List Int} {r : List String}
    (rest : List (List String)) {id : Int} {rec : IdentRec}
    (hv : identRowValid r = some (id, rec))
    (hcond : (seen.contains id || store.any fun x => x.id = id) = false) :
    dupDelta store seen (r :: rest) = dupDelta store (seen ++ [id]) rest := by
  simp only [dupDelta, hv, hcond, Bool.false_eq_true, if_false]

theorem newEntries_fresh (rows : List (List String)) :
    ∀ (store : List DbRow) (seen : List Int), ∀ p ∈ newEntries store seen rows,
      p.1 ∉ seen ∧ (store.any fun x => x.id = p.1) = false := by
  induction rows with
  | nil => intro store seen p hp; cases hp
  | cons r rest ih =>
    intro store seen p hp
    cases hv : identRowValid r with
    | none =>
      rw [newEntries_cons_none rest hv] at hp
      exact ih store seen p hp
    | some q =>
      obtain ⟨id, rec⟩ := q
      cases hcond : (seen.contains id || store.any fun x => x.id = id) with
      | true =>
        rw [newEntries_cons_dup rest hv hcond] at hp
        exact ih store seen p hp
      | false =>
        rw [newEntries_cons_new rest hv hcond] at hp
        rcases List.mem_cons.mp hp with rfl | hp'
        · have h2 := Bool.or_eq_false_iff.mp hcond
          constructor
          · simpa using h2.1
          · exact h2.2
        · have := ih store (seen ++ [id]) p hp'
          exact ⟨fun hmem => this.1 (List.mem_append_left _ hmem), this.2⟩

theorem newEntries_ids_nodup (rows : List (List String)) :
    ∀ (store : List DbRow) (seen : List Int),
      ((newEntries store seen rows).map Prod.fst).Nodup := by
  induction rows with
  | nil => intro store seen; simp [newEntries]
  | cons r rest ih =>
    intro store seen
    cases hv : identRowValid r with
    | none =>
      rw [newEntries_cons_none rest hv]
      exact ih store seen
    | some q =>
      obtain ⟨id, rec⟩ := q
      cases hcond : (seen.contains id || store.any fun x => x.id = id) with
      | true =>
        rw [newEntries_cons_dup rest hv hcond]
        exact ih store seen
      | false =>
        rw [newEntries_cons_new rest hv hcond]
        simp only [List.map_cons, List.nodup_cons]
        constructor
        · intro hmem
          obtain ⟨p, hp, hpid⟩ := List.mem_map.mp hmem
          apply (newEntries_fresh rest store (seen ++ [id]) p hp).1
          rw [hpid]
          exact List.mem_append_right _ (List.mem_singleton_self id)
        · exact ih store (seen ++ [id])

theorem newEntries_from_rows (rows : List (List String)) :
    ∀ (store : List DbRow) (seen : List Int), ∀ p ∈ newEntries store seen rows,
      ∃ r ∈ rows, identRowValid r = some p := by
  induction rows with
  | nil => intro store seen p hp; cases hp
  | cons r rest ih =>
    intro store seen p hp
    cases hv : identRowValid r with
    | none =>
      rw [newEntries_cons_none rest hv] at hp
      obtain ⟨r2, hr2, hq⟩ := ih store seen p hp
      exact ⟨r2, List.mem_cons_of_mem r hr2, hq⟩
    | some q =>
      obtain ⟨id, rec⟩ := q
      cases hcond : (seen.contains id || store.any fun x => x.id = id) with
      | true =>
        rw [newEntries_cons_dup rest hv hcond] at hp
        obtain ⟨r2, hr2, hq⟩ := ih store seen p hp
        exact ⟨r2, List.mem_cons_of_mem r hr2, hq⟩
      | false =>
        rw [newEntries_cons_new rest hv hcond] at hp
        rcases List.mem_cons.mp hp with rfl | hp'
        · exact ⟨r, List.mem_cons_self r rest, hv⟩
        · obtain ⟨r2, hr2, hq⟩ := ih store (seen ++ [id]) p hp'
          exact ⟨r2, List.mem_cons_of_mem r hr2, hq⟩

theorem newEntries_length_le (rows : List (List String)) :
    ∀ (store : List DbRow) (seen : List Int),
      (newEntries store seen rows).length ≤ (validPairs rows).length := by
  induction rows with
  | nil => intro store seen; simp [newEntries, validPairs]
  | cons r rest ih =>
    intro store seen
    cases hv : identRowValid r with
    | none =>
      rw [newEntries_cons_none rest hv, validPairs_cons_none rest hv]
      exact ih store seen
    | some q =>
      obtain ⟨id, rec⟩ := q
      rw [validPairs_cons_some rest hv]
      cases hcond : (seen.contains id || store.any fun x => x.id = id) with
      | true =>
        rw [newEntries_cons_dup rest hv hcond]
        exact (ih store seen).trans (Nat.le_succ _)
      | false =>
        rw [newEntries_cons_new rest hv hcond]
        exact Nat.succ_le_succ (ih store (seen ++ [id]))

theorem newEntries_length_eq (rows : List (List String)) :
    ∀ (store : List DbRow) (seen : List Int),
      (newEntries store seen rows).length = (validPairs rows).length →
      newEntries store seen rows = validPairs rows := by
  induction rows with
  | nil => intro store seen _; simp [newEntries, validPairs]
  | cons r rest ih =>
    intro store seen hlen
    cases hv : identRowValid r with
    | none =>
      rw [newEntries_cons_none rest hv, validPairs_cons_none rest hv] at hlen ⊢
      exact ih store seen hlen
    | some q =>
      obtain ⟨id, rec⟩ := q
      rw [validPairs_cons_some rest hv] at hlen ⊢
      cases hcond : (seen.contains id || store.any fun x => x.id = id) with
      | true =>
        exfalso
        rw [newEntries_cons_dup rest hv hcond] at hlen
        have := newEntries_length_le rest store seen
        simp only [List.length_cons] at hlen
        omega
      | false =>
        rw [newEntries_cons_new rest hv hcond] at hlen ⊢
        simp only [List.length_cons, Nat.succ_inj] at hlen
        rw [ih store (seen ++ [id]) hlen]

theorem dupDelta_plus (rows : List (List String)) :
    ∀ (store : List DbRow) (seen : List Int),
      dupDelta store seen rows + (newEntries store seen rows).length =
        (validPairs rows).length := by
  induction rows with
  | nil => intro store seen; simp [dupDelta, newEntries, validPairs]
  | cons r rest ih =>
    intro store seen
    cases hv : identRowValid r with
    | none =>
      rw [dupDelta_cons_none rest hv, newEntries_cons_none rest hv,
        validPairs_cons_none rest hv]
      exact ih store seen
    | some q =>
      obtain ⟨id, rec⟩ := q
      rw [validPairs_cons_some rest hv]
      cases hcond : (seen.contains id || store.any fun x => x.id = id) with
      | true =>
        rw [dupDelta_cons_dup rest hv hcond, newEntries_cons_dup rest hv hcond]
        have := ih store seen
        simp only [List.length_cons]
        omega
      | false =>
        rw [dupDelta_cons_new rest hv hcond, newEntries_cons_new rest hv hcond]
        have := ih store (seen ++ [id])
        simp only [List.length_cons]
        omega

theorem newEntries_countP_fresh (rows : List (List String)) :
    ∀ (store : List DbRow) (seen : List Int) (k : Int), k ∉ seen →
      (store.any fun x => x.id = k) = false →
      1 ≤ (validPairs rows).countP (fun p => decide (p.1 = k)) →
      (newEntries store seen rows).countP (fun p => decide (p.1 = k)) = 1 := by
  induction rows with
  | nil =>
    intro store seen k _ _ hocc
    simp [validPairs] at hocc
  | cons r rest ih =>
    intro store seen k hk hf hocc
    cases hv : identRowValid r with
    | none =>
      rw [validPairs_cons_none rest hv] at hocc
      rw [newEntries_cons_none rest hv]
      exact ih store seen k hk hf hocc
    | some q =>
      obtain ⟨id, rec⟩ := q
      by_cases hik : id = k
      · subst hik
        have hc1 : seen.contains id = false := by simpa using hk
        have hcond : (seen.contains id || store.any fun x => x.id = id) = false := by
          rw [hc1, hf]
          rfl
        rw [newEntries_cons_new rest hv hcond, List.countP_cons]
        have htail :
            (newEntries store (seen ++ [id]) rest).countP (fun p => decide (p.1 = id)) = 0 := by
          rw [List.countP_eq_zero]
          intro q hq
          have := (newEntries_fresh rest store (seen ++ [id]) q hq).1
          simp only [decide_eq_true_eq]
          intro hqk
          exact this (by rw [hqk]; exact List.mem_append_right _ (List.mem_singleton_self id))
        rw [htail]
        simp
      · have hocc' : 1 ≤ (validPairs rest).countP (fun p => decide (p.1 = k)) := by
          rw [validPairs_cons_some rest hv, List.countP_cons] at hocc
          simpa [hik] using hocc
        cases hcond : (seen.contains id || store.any fun x => x.id = id) with
        | true =>
          rw [newEntries_cons_dup rest hv hcond]
          exact ih store seen k hk hf hocc'
        | false =>
          rw [newEntries_cons_new rest hv hcond, List.countP_cons]
          have hk2 : k ∉ seen ++ [id] := by
            intro hmem
            rcases List.mem_append.mp hmem with h1 | h1
            · exact hk h1
            · exact hik (List.mem_singleton.mp h1).symm
          rw [ih store (seen ++ [id]) k hk2 hf hocc']
          simp [hik]

/-! ## Lemmas: identifier-keyed insert phase -/

theorem identInsertLoop_clean (pairs : List (Int × IdentRec)) :
    ∀ (s : List DbRow) (dup : Nat),
      (∀ p ∈ pairs, (toDbRow p.2).id = p.1) →
      (∀ p ∈ pairs, (s.any fun x => x.id = p.1) = false) →
      ((pairs.map Prod.fst).Nodup) →
      identInsertLoop s dup (pairs.map Prod.snd) =
        (s ++ pairs.map (fun p => toDbRow p.2), dup) := by
  induction pairs with
  | nil => intro s dup _ _ _; simp [identInsertLoop]
  | cons p rest ih =>
    intro s dup hid hfr hnd
    have hpid : (toDbRow p.2).id = p.1 := hid p (List.mem_cons_self p rest)
    have hcond : (s.any fun x => x.id = (toDbRow p.2).id) = false := by
      rw [hpid]
      exact hfr p (List.mem_cons_self p rest)
    simp only [List.map_cons, identInsertLoop, hcond, Bool.false_eq_true, if_false]
    rw [ih (s ++ [toDbRow p.2]) dup
      (fun q hq => hid q (List.mem_cons_of_mem p hq))
      (fun q hq => by
        rw [List.any_append]
        have h1 : (s.any fun x => x.id = q.1) = false :=
          hfr q (List.mem_cons_of_mem p hq)
        have h2 : ([toDbRow p.2].any fun x => x.id = q.1) = false := by
          simp only [List.any_cons, List.any_nil, Bool.or_false, hpid]
          simp only [List.map_cons, List.nodup_cons] at hnd
          have : p.1 ≠ q.1 := by
            intro he
            exact hnd.1 (he ▸ List.mem_map_of_mem Prod.fst hq)
          simpa using this
        rw [h1, h2]
        rfl)
      (by simp only [List.map_cons, List.nodup_cons] at hnd; exact hnd.2)]
    simp

theorem identInsertLoop_nodup (queue : List IdentRec) :
    ∀ (s : List DbRow) (dup : Nat), idsNodup s → idsNodup (identInsertLoop s dup queue).1 := by
  induction queue with
  | nil => intro s dup h; exact h
  | cons rec rest ih =>
    intro s dup h
    cases hc : s.any (fun x => x.id = (toDbRow rec).id) with
    | true =>
      simp only [identInsertLoop, hc, eq_self_iff_true, ite_true]
      exact ih s (dup + 1) h
    | false =>
      simp only [identInsertLoop, hc, Bool.false_eq_true, if_false]
      apply ih
      unfold idsNodup at h ⊢
      rw [List.map_append]
      rw [List.nodup_append]
      refine ⟨h, by simp, ?_⟩
      intro a ha
      simp only [List.map_cons, List.map_nil, List.mem_singleton]
      intro hb
      rw [List.any_eq_false] at hc
      obtain ⟨x, hx, hxa⟩ := List.mem_map.mp ha
      have := hc x hx
      rw [hb] at hxa
      simp [hxa] at this

/-! ## Lemmas: archive extractor -/

theorem extractTarLoop_abort (steps : List ArcStep) :
    ∀ acc : List CsvFileData,
      (ArcStep.corrupt ∈ steps ∨
        ∃ n isReg sz content, ArcStep.entry n isReg sz content true ∈ steps ∧
          entrySelected n isReg = true) →
      extractTarLoop acc steps = none := by
  induction steps with
  | nil =>
    intro acc h
    rcases h with hc | ⟨n, r, z, c, hmem, _⟩
    · cases hc
    · cases hmem
  | cons st rest ih =>
    intro acc h
    cases st with
    | corrupt => rfl
    | entry n r z c e =>
      have hstep : ArcStep.corrupt ∈ rest ∨
          (∃ n2 r2 z2 c2, ArcStep.entry n2 r2 z2 c2 true ∈ rest ∧ entrySelected n2 r2 = true) ∨
          (e = true ∧ entrySelected n r = true) := by
        rcases h with hc | ⟨n2, r2, z2, c2, hmem, hsel2⟩
        · rcases List.mem_cons.mp hc with heq | hm
          · cases heq
          · exact Or.inl hm
        · rcases List.mem_cons.mp hmem with heq | hm
          · cases heq
            exact Or.inr (Or.inr ⟨rfl, hsel2⟩)
          · exact Or.inr (Or.inl ⟨n2, r2, z2, c2, hm, hsel2⟩)
      cases hr : r with
      | false =>
        have hrest : ArcStep.corrupt ∈ rest ∨
            ∃ n2 r2 z2 c2, ArcStep.entry n2 r2 z2 c2 true ∈ rest ∧ entrySelected n2 r2 = true := by
          rcases hstep with h1 | h2 | ⟨_, hsel⟩
          · exact Or.inl h1
          · exact Or.inr h2
          · rw [hr] at hsel
            simp [entrySelected] at hsel
        simp only [extractTarLoop, hr, Bool.not_false, eq_self_iff_true, ite_true]
        exact ih acc hrest
      | true =>
        cases hpre : strHasPre (baseName n) "._" with
        | true =>
          have hrest : ArcStep.corrupt ∈ rest ∨
              ∃ n2 r2 z2 c2, ArcStep.entry n2 r2 z2 c2 true ∈ rest ∧ entrySelected n2 r2 = true := by
            rcases hstep with h1 | h2 | ⟨_, hsel⟩
            · exact Or.inl h1
            · exact Or.inr h2
            · simp [entrySelected, hpre] at hsel
          simp only [extractTarLoop, hr, Bool.not_true, Bool.false_eq_true, if_false, hpre,
            eq_self_iff_true, ite_true]
          exact ih acc hrest
        | false =>
          cases hsuf : strHasSuf (lowerStr n) ".csv" with
          | false =>
            have hrest : ArcStep.corrupt ∈ rest ∨
                ∃ n2 r2 z2 c2, ArcStep.entry n2 r2 z2 c2 true ∈ rest ∧ entrySelected n2 r2 = true := by
              rcases hstep with h1 | h2 | ⟨_, hsel⟩
              · exact Or.inl h1
              · exact Or.inr h2
              · simp [entrySelected, hsuf] at hsel
            simp only [extractTarLoop, hr, Bool.not_true, Bool.false_eq_true, if_false, hpre,
              hsuf, Bool.not_false, eq_self_iff_true, ite_true]
            exact ih acc hrest
          | true =>
            cases he : e with
            | true =>
              simp only [extractTarLoop, hr, Bool.not_true, Bool.false_eq_true, if_false,
                hpre, hsuf, Bool.not_false, eq_self_iff_true, ite_true, he]
            | false =>
              have hrest : ArcStep.corrupt ∈ rest ∨
                  ∃ n2 r2 z2 c2, ArcStep.entry n2 r2 z2 c2 true ∈ rest ∧
                    entrySelected n2 r2 = true := by
                rcases hstep with h1 | h2 | ⟨hee, _⟩
                · exact Or.inl h1
                · exact Or.inr h2
                · rw [hee] at he
                  cases he
              simp only [extractTarLoop, hr, Bool.not_true, Bool.false_eq_true, if_false,
                hpre, hsuf, Bool.not_false, eq_self_iff_true, ite_true, he]
              exact ih _ hrest

theorem extractZipLoop_abort (entries : List ZipEntry) :
    ∀ acc : List CsvFileData,
      (∃ e ∈ entries, zipSelected e.name = true ∧ e.readErr = true) →
      extractZipLoop acc entries = none := by
  induction entries with
  | nil =>
    intro acc h
    obtain ⟨e, he, -⟩ := h
    cases he
  | cons en rest ih =>
    intro acc h
    have hstep : (∃ e ∈ rest, zipSelected e.name = true ∧ e.readErr = true) ∨
        (zipSelected en.name = true ∧ en.readErr = true) := by
      obtain ⟨e, he, hsel, herr⟩ := h
      rcases List.mem_cons.mp he with rfl | hm
      · exact Or.inr ⟨hsel, herr⟩
      · exact Or.inl ⟨e, hm, hsel, herr⟩
    cases hpre : strHasPre (baseName en.name) "._" with
    | true =>
      have hrest : ∃ e ∈ rest, zipSelected e.name = true ∧ e.readErr = true := by
        rcases hstep with h1 | ⟨hsel, -⟩
        · exact h1
        · simp [zipSelected, entrySelected, hpre] at hsel
      simp only [extractZipLoop, hpre, eq_self_iff_true, ite_true]
      exact ih acc hrest
    | false =>
      cases hsuf : strHasSuf (lowerStr en.name) ".csv" with
      | false =>
        have hrest : ∃ e ∈ rest, zipSelected e.name = true ∧ e.readErr = true := by
          rcases hstep with h1 | ⟨hsel, -⟩
          · exact h1
          · simp [zipSelected, entrySelected, hsuf] at hsel
        simp only [extractZipLoop, hpre, Bool.false_eq_true, if_false, hsuf,
          Bool.not_false, eq_self_iff_true, ite_true]
        exact ih acc hrest
      | true =>
        cases he : en.readErr with
        | true =>
          simp only [extractZipLoop, hpre, Bool.false_eq_true, if_false, hsuf,
            Bool.not_true, he, eq_self_iff_true, ite_true]
        | false =>
          have hrest : ∃ e ∈ rest, zipSelected e.name = true ∧ e.readErr = true := by
            rcases hstep with h1 | ⟨-, herr⟩
            · exact h1
            · rw [herr] at he
              cases he
          simp only [extractZipLoop, hpre, Bool.false_eq_true, if_false, hsuf,
            Bool.not_true, he, eq_self_iff_true, ite_true]
          exact ih _ hrest

theorem extractTarLoop_wf (steps : List ArcStep) :
    ∀ acc : List CsvFileData, (∀ st ∈ steps, stepOk st = true) →
      extractTarLoop acc steps = some (acc ++ steps.filterMap tarSelect) := by
  induction steps with
  | nil => intro acc _; simp [extractTarLoop]
  | cons st rest ih =>
    intro acc hwf
    have hrest := fun st2 hm => hwf st2 (List.mem_cons_of_mem st hm)
    cases st with
    | corrupt =>
      have := hwf ArcStep.corrupt (List.mem_cons_self _ rest)
      simp [stepOk] at this
    | entry n r z c e =>
      have he : e = false := by
        have := hwf (ArcStep.entry n r z c e) (List.mem_cons_self _ rest)
        simpa [stepOk] using this
      subst he
      cases hr : r with
      | false =>
        have hts : tarSelect (ArcStep.entry n false z c false) = none := by
          simp [tarSelect, entrySelected]
        simp only [extractTarLoop, Bool.not_false, eq_self_iff_true, ite_true,
          List.filterMap_cons, hts]
        exact ih acc hrest
      | true =>
        cases hpre : strHasPre (baseName n) "._" with
        | true =>
          have hts : tarSelect (ArcStep.entry n true z c false) = none := by
            simp [tarSelect, entrySelected, hpre]
          simp only [extractTarLoop, Bool.not_true, Bool.false_eq_true, if_false, hpre,
            eq_self_iff_true, ite_true, List.filterMap_cons, hts]
          exact ih acc hrest
        | false =>
          cases hsuf : strHasSuf (lowerStr n) ".csv" with
          | false =>
            have hts : tarSelect (ArcStep.entry n true z c false) = none := by
              simp [tarSelect, entrySelected, hsuf]
            simp only [extractTarLoop, Bool.not_true, Bool.false_eq_true, if_false, hpre,
              hsuf, Bool.not_false, eq_self_iff_true, ite_true, List.filterMap_cons, hts]
            exact ih acc hrest
          | true =>
            have hts : tarSelect (ArcStep.entry n true z c false) = some ⟨n, c.take z⟩ := by
              simp [tarSelect, entrySelected, hpre, hsuf]
            simp only [extractTarLoop, Bool.not_true, Bool.false_eq_true, if_false, hpre,
              hsuf, Bool.not_false, eq_self_iff_true, ite_true, List.filterMap_cons, hts]
            rw [ih (acc ++ [({ name := n, content := c.take z } : CsvFileData)]) hrest]
            simp

theorem extractZipLoop_wf (entries : List ZipEntry) :
    ∀ acc : List CsvFileData, (∀ e ∈ entries, e.readErr = false) →
      extractZipLoop acc entries = some (acc ++ entries.filterMap zipSelect) := by
  induction entries with
  | nil => intro acc _; simp [extractZipLoop]
  | cons en rest ih =>
    intro acc hwf
    have hrest := fun e2 hm => hwf e2 (List.mem_cons_of_mem en hm)
    have he : en.readErr = false := hwf en (List.mem_cons_self _ rest)
    cases hpre : strHasPre (baseName en.name) "._" with
    | true =>
      have hts : zipSelect en = none := by
        simp [zipSelect, zipSelected, entrySelected, hpre]
      simp only [extractZipLoop, hpre, eq_self_iff_true, ite_true,
        List.filterMap_cons, hts]
      exact ih acc hrest
    | false =>
      cases hsuf : strHasSuf (lowerStr en.name) ".csv" with
      | false =>
        have hts : zipSelect en = none := by
          simp [zipSelect, zipSelected, entrySelected, hsuf]
        simp only [extractZipLoop, hpre, Bool.false_eq_true, if_false, hsuf,
          Bool.not_false, eq_self_iff_true, ite_true, List.filterMap_cons, hts]
        exact ih acc hrest
      | true =>
        have hts : zipSelect en = some ⟨en.name, en.content⟩ := by
          simp [zipSelect, zipSelected, entrySelected, hpre, hsuf]
        simp only [extractZipLoop, hpre, Bool.false_eq_true, if_false, hsuf,
          Bool.not_true, Bool.not_false, eq_self_iff_true, ite_true,
          List.filterMap_cons, hts, he]
        rw [ih (acc ++ [({ name := en.name, content := en.content } : CsvFileData)]) hrest]
        simp

/-! ## Lemmas: export query -/

theorem buildConds_all (sd ed : Option Date) (mn mx : Option Dec) (r : DbRow) :
    (buildConds sd ed mn mx).all (fun c => c r) = specIncluded sd ed mn mx r := by
  cases sd <;> cases ed <;> cases mn <;> cases mx <;>
    simp [buildConds, specIncluded, List.all_append, Bool.and_assoc]

theorem mem_insById (r a : DbRow) (l : List DbRow) :
    a ∈ insById r l ↔ a = r ∨ a ∈ l := by
  induction l with
  | nil => simp [insById]
  | cons x xs ih =>
    by_cases h : r.id ≤ x.id
    · simp only [insById, if_pos h, List.mem_cons]
    · simp only [insById, if_neg h, List.mem_cons, ih]
      tauto

theorem mem_sortById (l : List DbRow) (a : DbRow) : a ∈ sortById l ↔ a ∈ l := by
  induction l with
  | nil => simp [sortById]
  | cons x xs ih =>
    show a ∈ insById x (sortById xs) ↔ _
    rw [mem_insById, ih, List.mem_cons]

theorem sorted_insById (r : DbRow) (l : List DbRow)
    (h : List.Pairwise (fun a b => a.id ≤ b.id) l) :
    List.Pairwise (fun a b => a.id ≤ b.id) (insById r l) := by
  induction l with
  | nil => simp [insById]
  | cons x xs ih =>
    rw [List.pairwise_cons] at h
    by_cases hle : r.id ≤ x.id
    · rw [insById, if_pos hle, List.pairwise_cons]
      refine ⟨?_, List.pairwise_cons.mpr h⟩
      intro b hb
      rcases List.mem_cons.mp hb with rfl | hb'
      · exact hle
      · exact hle.trans (h.1 b hb')
    · rw [insById, if_neg hle, List.pairwise_cons]
      refine ⟨?_, ih h.2⟩
      intro b hb
      rcases (mem_insById r b xs).mp hb with rfl | hb'
      · omega
      · exact h.1 b hb'

theorem sorted_sortById (l : List DbRow) :
    List.Pairwise (fun a b => a.id ≤ b.id) (sortById l) := by
  induction l with
  | nil => simp [sortById]
  | cons x xs ih => exact sorted_insById x (sortById xs) ih

theorem identRowValid_some {r : List String} {p : Int × IdentRec}
    (h : identRowValid r = some p) : ¬(r.length < 5) ∧ identParseRow r = some p := by
  unfold identRowValid at h
  split at h
  · cases h
  · rename_i hlen
    exact ⟨hlen, h⟩

theorem identParseRow_id {r : List String} {id : Int} {rec : IdentRec}
    (h : identParseRow r = some (id, rec)) :
    rec.idRaw = r.getD 0 "" ∧ atoi (trimSpace (r.getD 0 "")) = some id := by
  unfold identParseRow at h
  split at h
  · cases h
  · rename_i id2 hid
    split at h
    · cases h
    · split at h
      · cases h
      · split at h
        · cases h
        · dsimp only at h
          split at h
          · cases h
          · cases h
            exact ⟨rfl, hid⟩

/-- C9: each present export bound (start date, end date, minimum price,
maximum price) contributes exactly one conjunctive inclusive predicate,
absent bounds impose no constraint (so boundary-equal records are
included), and the result is ordered by identifier ascending. -/
theorem c9_export_filter_semantics :
    ∀ (s : List DbRow) (sd ed : Option Date) (mn mx : Option Dec),
      (∀ r : DbRow, r ∈ getPricesRows s sd ed mn mx ↔
        r ∈ s ∧ specIncluded sd ed mn mx r = true) ∧
      List.Pairwise (fun a b => a.id ≤ b.id) (getPricesRows s sd ed mn mx) ∧
      (buildConds sd ed mn mx).length =
        (if sd.isSome then 1 else 0) + (if ed.isSome then 1 else 0) +
          (if mn.isSome then 1 else 0) + (if mx.isSome then 1 else 0) := by
  intro s sd ed mn mx
  refine ⟨?_, ?_, ?_⟩
  · intro r
    unfold getPricesRows
    rw [mem_sortById, List.mem_filter, buildConds_all]
  · exact sorted_sortById _
  · cases sd <;> cases ed <;> cases mn <;> cases mx <;> simp [buildConds]

/-- C7: a structurally unreadable archive — a tar `Next` error, a read
error of a selected tar entry, a zip whose reader cannot be created, or
a readable zip whose selected entry stream is unreadable — makes
extraction fail as a whole with no partial member list, and the
ingestion request is rejected with the store untouched, before any row
is parsed. -/
theorem c7_malformed_archive_aborts :
    ∀ (s : List PriceRec) (steps : List ArcStep) (entries : List ZipEntry)
      (decode : List Char → Option (List (List String))),
      (ArcStep.corrupt ∈ steps ∨
        ∃ n isReg sz content, ArcStep.entry n isReg sz content true ∈ steps ∧
          entrySelected n isReg = true) →
      (∃ e ∈ entries, zipSelected e.name = true ∧ e.readErr = true) →
      extractCSVFiles (.tar steps) = none ∧
      uploadPricesArc s (.tar steps) decode = (s, none) ∧
      uploadPricesArc s (.zip none) decode = (s, none) ∧
      extractCSVFiles (.zip (some entries)) = none ∧
      uploadPricesArc s (.zip (some entries)) decode = (s, none) := by
  intro s steps entries decode h hz
  have hext : extractTarLoop [] steps = none := extractTarLoop_abort steps [] h
  have h1 : extractCSVFiles (.tar steps) = none := by
    simp [extractCSVFiles, hext]
  have hzext : extractZipLoop [] entries = none := extractZipLoop_abort entries [] hz
  have h2 : extractCSVFiles (.zip (some entries)) = none := by
    simp [extractCSVFiles, hzext]
  exact ⟨h1, by simp [uploadPricesArc, h1], rfl, h2, by simp [uploadPricesArc, h2]⟩

/-- Witness for C7 at a concrete corrupt tar stream and a concrete
readable zip whose selected `data.csv` entry stream fails to read. -/
theorem c7_malformed_archive_aborts_witness :
    extractCSVFiles (.tar [ArcStep.corrupt]) = none ∧
    uploadPricesArc [] (.tar [ArcStep.corrupt]) (fun _ => some []) = ([], none) ∧
    uploadPricesArc [] (.zip none) (fun _ => some []) = ([], none) ∧
    extractCSVFiles (.zip (some [⟨"data.csv", ['x'], true⟩])) = none ∧
    uploadPricesArc [] (.zip (some [⟨"data.csv", ['x'], true⟩]))
      (fun _ => some []) = ([], none) :=
  c7_malformed_archive_aborts [] [ArcStep.corrupt] [⟨"data.csv", ['x'], true⟩]
    (fun _ => some []) (Or.inl (List.mem_singleton_self _)) (by decide)

theorem extractCSVFiles_tar_wf (steps : List ArcStep) (hwf : wellFormedTar steps) :
    extractCSVFiles (.tar steps) =
      (if (steps.filterMap tarSelect).isEmpty then none
       else some (steps.filterMap tarSelect)) := by
  rw [show extractCSVFiles (.tar steps) =
      (match extractTarLoop [] steps with
        | none => none
        | some files => if files.isEmpty then none else some files) from rfl]
  rw [extractTarLoop_wf steps [] hwf]
  simp

theorem extractCSVFiles_zip_wf (entries : List ZipEntry)
    (hz : ∀ e ∈ entries, e.readErr = false) :
    extractCSVFiles (.zip (some entries)) =
      (if (entries.filterMap zipSelect).isEmpty then none
       else some (entries.filterMap zipSelect)) := by
  rw [show extractCSVFiles (.zip (some entries)) =
      (match extractZipLoop [] entries with
        | none => none
        | some files => if files.isEmpty then none else some files) from rfl]
  rw [extractZipLoop_wf entries [] hz]
  simp

/-- C8: on a readable archive the extractor keeps exactly the
regular-file entries (tar) whose base name does not start with `._` and
whose lower-cased full name ends with `.csv`, a tar entry contributing
exactly its declared size of content; an empty selection is Go's nil
slice, the same value the error paths return. -/
theorem c8_member_selection :
    ∀ (steps : List ArcStep) (entries : List ZipEntry),
      wellFormedTar steps → (∀ e ∈ entries, e.readErr = false) →
      extractCSVFiles (.tar steps) =
        (if (steps.filterMap tarSelect).isEmpty then none
         else some (steps.filterMap tarSelect)) ∧
      extractCSVFiles (.zip (some entries)) =
        (if (entries.filterMap zipSelect).isEmpty then none
         else some (entries.filterMap zipSelect)) := by
  intro steps entries hwf hz
  exact ⟨extractCSVFiles_tar_wf steps hwf, extractCSVFiles_zip_wf entries hz⟩

/-- Witness for C8: a tar with a macOS metadata entry `._data.csv`
alongside `data.csv` and a non-CSV entry yields only `data.csv`, its
content cut at the declared size. -/
theorem c8_member_selection_witness :
    extractCSVFiles (.tar
      [ArcStep.entry "._data.csv" true 5 "abcde".toList false,
       ArcStep.entry "data.csv" true 3 "a,b,xyz".toList false,
       ArcStep.entry "notes.txt" true 2 "hi".toList false]) =
      some [⟨"data.csv", ['a', ',', 'b']⟩] := by
  have h := (c8_member_selection
    [ArcStep.entry "._data.csv" true 5 "abcde".toList false,
     ArcStep.entry "data.csv" true 3 "a,b,xyz".toList false,
     ArcStep.entry "notes.txt" true 2 "hi".toList false]
    [] (by decide) (by simp)).1
  rw [h]
  decide

/-- C10: a readable archive in which no entry matches the CSV selection
rule yields the nil member list, indistinguishable from the
malformed-archive result, so the ingestion request is rejected with an
archive-read error and the store unchanged. -/
theorem c10_empty_selection_rejected :
    ∀ (s : List PriceRec) (steps : List ArcStep) (entries : List ZipEntry)
      (decode : List Char → Option (List (List String))),
      wellFormedTar steps → steps.filterMap tarSelect = [] →
      (∀ e ∈ entries, e.readErr = false) → entries.filterMap zipSelect = [] →
      extractCSVFiles (.tar steps) = none ∧
      extractCSVFiles (.tar steps) = extractCSVFiles (.tar [ArcStep.corrupt]) ∧
      uploadPricesArc s (.tar steps) decode = (s, none) ∧
      extractCSVFiles (.zip (some entries)) = none ∧
      uploadPricesArc s (.zip (some entries)) decode = (s, none) := by
  intro s steps entries decode hwf hempty hz hzempty
  have h1 : extractCSVFiles (.tar steps) = none := by
    rw [extractCSVFiles_tar_wf steps hwf, hempty]
    rfl
  have h2 : extractCSVFiles (.zip (some entries)) = none := by
    rw [extractCSVFiles_zip_wf entries hz, hzempty]
    rfl
  exact ⟨h1, by rw [h1]; rfl, by simp [uploadPricesArc, h1], h2,
    by simp [uploadPricesArc, h2]⟩

/-- Witness for C10: a valid tar holding only `readme.txt` and a valid
zip holding only `readme.txt` are both rejected as archive errors. -/
theorem c10_empty_selection_rejected_witness :
    extractCSVFiles (.tar [ArcStep.entry "readme.txt" true 2 ['h', 'i'] false]) = none ∧
    uploadPricesArc [] (.tar [ArcStep.entry "readme.txt" true 2 ['h', 'i'] false])
      (fun _ => some []) = ([], none) ∧
    extractCSVFiles (.zip (some [⟨"readme.txt", ['h', 'i'], false⟩])) = none := by
  have h := c10_empty_selection_rejected []
    [ArcStep.entry "readme.txt" true 2 ['h', 'i'] false]
    [⟨"readme.txt", ['h', 'i'], false⟩]
    (fun _ => some []) (by decide) (by decide) (by decide) (by decide)
  exact ⟨h.1, h.2.2.1, h.2.2.2.1⟩

/-- C2 (amended): in the content-keyed, transactional variant, any
storage fault before commit (begin, an existence query, an insert, or
the commit itself) leaves the durable store exactly as before the
request and reports an error; the fault-free run commits the batch and
returns the loop's tallies.  (The identifier-keyed variant is
best-effort and violates the original claim; see the counterexample.) -/
theorem c2_transactional_atomicity :
    (∀ (f : Nat → Bool) (s recs : List PriceRec),
        (contentTx f s recs).2 = none → (contentTx f s recs).1 = s) ∧
    (∀ s recs : List PriceRec,
        contentTx (fun _ => false) s recs =
          ((contentPersist s recs).store,
            some ⟨recs.length, (contentPersist s recs).dup, (contentPersist s recs).ins,
              (contentPersist s recs).cats.length, (contentPersist s recs).tp⟩)) := by
  constructor
  · intro f s recs h
    cases h0 : f 0 with
    | true => simp [contentTx, h0]
    | false =>
      cases hl : contentTxLoop f 1 ⟨s, 0, 0, [], decZero⟩ recs with
      | error e => simp [contentTx, h0, hl]
      | ok p =>
        obtain ⟨st, k⟩ := p
        cases hk : f k with
        | true => simp [contentTx, h0, hl, hk]
        | false => simp [contentTx, h0, hl, hk] at h
  · exact contentTx_noFault

/-- Witness for C2: a fault injected at the first existence query rolls
the transaction back, leaving the concrete store untouched. -/
theorem c2_transactional_atomicity_witness :
    (contentTx (fun k => decide (k = 1))
      [⟨"a", "b", ⟨1, 1⟩, ⟨2024, 1, 2⟩⟩] [⟨"c", "d", ⟨2, 1⟩, ⟨2024, 1, 3⟩⟩]).1 =
      [⟨"a", "b", ⟨1, 1⟩, ⟨2024, 1, 2⟩⟩] :=
  c2_transactional_atomicity.1 (fun k => decide (k = 1))
    [⟨"a", "b", ⟨1, 1⟩, ⟨2024, 1, 2⟩⟩] [⟨"c", "d", ⟨2, 1⟩, ⟨2024, 1, 3⟩⟩] (by decide)

/-- Counterexample to C2 as stated: in the identifier-keyed variant the
inserts are best-effort.  Both rows of this batch are validated and
queued (their identifier fields carry surrounding spaces, so the insert
re-parses them as 0), the first insert lands, the second insert fails
with a key conflict and is merely tallied as a duplicate: the store has
durably gained a row, yet the request reports success — not the
claimed all-or-nothing abort. -/
theorem c2_counterexample :
    (identCollect [] [[["id", "name", "category", "price", "create_date"],
        [" 1 ", "a", "b", "1", "2024-01-02"],
        [" 2 ", "c", "d", "2", "2024-01-02"]]]).queue.length = 2 ∧
    (identUpload [] [[["id", "name", "category", "price", "create_date"],
        [" 1 ", "a", "b", "1", "2024-01-02"],
        [" 2 ", "c", "d", "2", "2024-01-02"]]]).1.length = 1 ∧
    (identUpload [] [[["id", "name", "category", "price", "create_date"],
        [" 1 ", "a", "b", "1", "2024-01-02"],
        [" 2 ", "c", "d", "2", "2024-01-02"]]]).2.duplicatesCount = 1 := by
  decide

/-- C5 (amended): the identifier-keyed variant's summary statistics
(`total_items`, `total_categories`, `total_price`) are aggregates over
the entire persisted store, but the content-keyed variant returns
batch-level statistics: its `total_items` is the number of rows this
request inserted (the store's growth), its `total_categories` counts
distinct categories among those inserted rows only, and its
`total_price` sums their prices only. -/
theorem c5_summary_statistics :
    (∀ (s : List PriceRec) (files : List (List (List String))),
        (contentUpload s files).2.totalItems =
          (insRows s (contentCollect files)).length ∧
        (contentUpload s files).1.length =
          s.length + (contentUpload s files).2.totalItems ∧
        (contentUpload s files).2.totalCategories =
          (insCats (insRows s (contentCollect files))).length ∧
        (contentUpload s files).2.totalPrice =
          insPriceSum (insRows s (contentCollect files))) ∧
    (∀ (s : List DbRow) (files : List (List (List String))),
        (identUpload s files).2.totalItems = (identUpload s files).1.length ∧
        (identUpload s files).2.totalCategories =
          storeCategories (identUpload s files).1 ∧
        (identUpload s files).2.totalPrice = storePriceSum (identUpload s files).1) := by
  constructor
  · intro s files
    refine ⟨?_, ?_, ?_, ?_⟩
    · show (contentPersist s (contentCollect files)).ins = _
      rw [contentPersist, contentPersistLoop_ins]
      simp
    · show (contentPersist s (contentCollect files)).store.length =
        s.length + (contentPersist s (contentCollect files)).ins
      rw [contentPersist, contentPersistLoop_ins, contentPersistLoop_store]
      simp
    · show (contentPersist s (contentCollect files)).cats.length = _
      rw [contentPersist, contentPersistLoop_cats]
      simp [insCats]
    · show (contentPersist s (contentCollect files)).tp = _
      rw [contentPersist, contentPersistLoop_tp]
      simp [insPriceSum]
  · intro s files
    rcases hi : identInsertLoop s (identCollect s files).dup (identCollect s files).queue
      with ⟨s2, dup2⟩
    simp [identUpload, hi]

/-- Counterexample to C5 as stated: with one record already persisted,
the content-keyed variant reports `total_items = 1` for a batch that
inserted one row, although the store then holds 2 rows — the summary is
batch-level, not store-wide. -/
theorem c5_counterexample :
    (contentUpload [⟨"x", "y", ⟨1, 1⟩, ⟨2024, 1, 1⟩⟩]
      [[["id", "name", "category", "price", "create_date"],
        ["0", "a", "b", "1", "2024-01-02"]]]).2.totalItems = 1 ∧
    (contentUpload [⟨"x", "y", ⟨1, 1⟩, ⟨2024, 1, 1⟩⟩]
      [[["id", "name", "category", "price", "create_date"],
        ["0", "a", "b", "1", "2024-01-02"]]]).1.length = 2 := by
  decide

/-- C6: re-ingesting an archive whose first ingestion accepted and
inserted N records (accepted = inserted, i.e. `total_items` equalled
`total_count`) inserts nothing — the second run reports
`total_items = 0`, leaves the store unchanged, and reports
`duplicates_count` equal to the first run's accepted count. -/
theorem c6_idempotent_reingestion (s : List PriceRec) (files : List (List (List String)))
    (h : (contentUpload s files).2.totalItems = (contentUpload s files).2.totalCount) :
    (contentUpload (contentUpload s files).1 files).2.totalItems = 0 ∧
    (contentUpload (contentUpload s files).1 files).1 = (contentUpload s files).1 ∧
    (contentUpload (contentUpload s files).1 files).2.duplicatesCount =
      (contentUpload s files).2.totalItems := by
  have hall : ∀ r ∈ contentCollect files,
      existsMatch (contentPersist s (contentCollect files)).store r = true := by
    intro r hr
    exact contentPersistLoop_mem (contentCollect files) ⟨s, 0, 0, [], decZero⟩ r hr
  have hsecond :
      contentPersist (contentPersist s (contentCollect files)).store (contentCollect files) =
        ⟨(contentPersist s (contentCollect files)).store,
          (contentCollect files).length, 0, [], decZero⟩ := by
    have := contentPersistLoop_allDup (contentCollect files)
      ⟨(contentPersist s (contentCollect files)).store, 0, 0, [], decZero⟩
      (by intro r hr; exact hall r hr)
    rw [contentPersist, this]
    simp
  refine ⟨?_, ?_, ?_⟩
  · show (contentPersist (contentPersist s (contentCollect files)).store
      (contentCollect files)).ins = 0
    rw [hsecond]
  · show (contentPersist (contentPersist s (contentCollect files)).store
      (contentCollect files)).store = (contentPersist s (contentCollect files)).store
    rw [hsecond]
  · show (contentPersist (contentPersist s (contentCollect files)).store
      (contentCollect files)).dup = (contentPersist s (contentCollect files)).ins
    rw [hsecond]
    exact h.symm

/-- Witness for C6 at a concrete one-row archive ingested into the
empty store: the first run accepts and inserts 1 record, the re-run
inserts 0, keeps the store, and reports 1 duplicate. -/
theorem c6_idempotent_reingestion_witness :
    (contentUpload (contentUpload [] [[["id", "name", "category", "price", "create_date"],
        ["0", "a", "b", "1", "2024-01-02"]]]).1
      [[["id", "name", "category", "price", "create_date"],
        ["0", "a", "b", "1", "2024-01-02"]]]).2.totalItems = 0 ∧
    (contentUpload (contentUpload [] [[["id", "name", "category", "price", "create_date"],
        ["0", "a", "b", "1", "2024-01-02"]]]).1
      [[["id", "name", "category", "price", "create_date"],
        ["0", "a", "b", "1", "2024-01-02"]]]).1 =
      (contentUpload [] [[["id", "name", "category", "price", "create_date"],
        ["0", "a", "b", "1", "2024-01-02"]]]).1 ∧
    (contentUpload (contentUpload [] [[["id", "name", "category", "price", "create_date"],
        ["0", "a", "b", "1", "2024-01-02"]]]).1
      [[["id", "name", "category", "price", "create_date"],
        ["0", "a", "b", "1", "2024-01-02"]]]).2.duplicatesCount =
      (contentUpload [] [[["id", "name", "category", "price", "create_date"],
        ["0", "a", "b", "1", "2024-01-02"]]]).2.totalItems :=
  c6_idempotent_reingestion []
    [[["id", "name", "category", "price", "create_date"],
      ["0", "a", "b", "1", "2024-01-02"]]] (by decide)

/-- C4 (amended): in both variants the first row of every file is
discarded unconditionally and every later row contributes
independently (the accepted set is a per-row filter-map, so one bad row
never aborts the file or batch).  The total-rows tally differs from the
claim: the identifier-keyed variant counts exactly the data rows with
at least 5 columns (dropped or accepted) and never counts shorter rows,
while the content-keyed variant's `total_count` counts only accepted
rows. -/
theorem c4_row_isolation_and_tally :
    (∀ files : List (List (List String)),
        contentCollect files =
          files.flatMap (fun f => (f.drop 1).filterMap parseRowContent)) ∧
    (∀ (s : List PriceRec) (files : List (List (List String))),
        (contentUpload s files).2.totalCount = (contentCollect files).length) ∧
    (∀ (s : List DbRow) (files : List (List (List String))),
        (identUpload s files).2.totalCount =
          (files.flatMap (fun f => f.drop 1)).countP (fun r => decide (5 ≤ r.length))) := by
  refine ⟨contentCollect_eq, fun s files => rfl, ?_⟩
  intro s files
  rcases hi : identInsertLoop s (identCollect s files).dup (identCollect s files).queue
    with ⟨s2, dup2⟩
  have : (identUpload s files).2.totalCount = (identCollect s files).tc := by
    simp [identUpload, hi]
  rw [this, identCollect_eq, identFlat_char]
  simp [tcDelta]

/-- Counterexample to C4 as stated: in the content-keyed variant a
dropped data row (here: empty name) does not count toward the reported
`total_count` at all — the tally is 0 although one data row was seen
and silently dropped. -/
theorem c4_counterexample :
    parseRowContent ["1", "", "b", "1", "2024-01-02"] = none ∧
    (contentUpload [] [[["id", "name", "category", "price", "create_date"],
        ["1", "", "b", "1", "2024-01-02"]]]).2.totalCount = 0 := by
  decide

/-- C1 (amended): for a batch holding at least two rows equal on the
dedup key, IF the key is not already persisted (and, in the
identifier-keyed variant, the identifier fields of the batch carry no
surrounding whitespace, since the insert phase re-parses the raw
field), then exactly one row with that key is inserted — regardless of
file or position — and at least one other is tallied in
`duplicates_count` (content-keyed: every non-inserted row of the batch
is tallied, `duplicates + inserted = accepted`).  If the key is already
persisted, no row with it is inserted (see the counterexample).  In
both variants the persisted store never holds two records equal on the
dedup key. -/
theorem c1_dedup_key_uniqueness :
    (∀ (s : List PriceRec) (files : List (List (List String))) (k : PriceRec),
        0 < k.price.den →
        (∀ x, 0 < x.price.den → keyCountC s x ≤ 1) →
        existsMatch s k = false →
        2 ≤ keyCountC (contentCollect files) k →
        keyCountC (contentUpload s files).1 k = 1 ∧
        1 ≤ (contentUpload s files).2.duplicatesCount ∧
        (contentUpload s files).2.duplicatesCount + (contentUpload s files).2.totalItems =
          (contentCollect files).length ∧
        (∀ x, 0 < x.price.den → keyCountC (contentUpload s files).1 x ≤ 1)) ∧
    (∀ (s : List DbRow) (files : List (List (List String))) (k : Int),
        (∀ r ∈ files.flatMap (fun f => f.drop 1), trimSpace (r.getD 0 "") = r.getD 0 "") →
        (s.any fun x => x.id = k) = false →
        2 ≤ (validPairs (files.flatMap (fun f => f.drop 1))).countP
              (fun p => decide (p.1 = k)) →
        idCount (identUpload s files).1 k = 1 ∧
        1 ≤ (identUpload s files).2.duplicatesCount ∧
        (idsNodup s → idsNodup (identUpload s files).1)) := by
  constructor
  · intro s files k hk hstore hf hocc
    have hbatch : ∀ r ∈ contentCollect files, 0 < r.price.den := contentCollect_denPos
    have hocc1 : 1 ≤ keyCountC (contentCollect files) k := by omega
    have hone : keyCountC (insRows s (contentCollect files)) k = 1 :=
      insRows_keyCount_fresh (contentCollect files) s k hk hbatch hf hocc1
    have hst : (contentUpload s files).1 = s ++ insRows s (contentCollect files) := by
      show (contentPersist s (contentCollect files)).store = _
      rw [contentPersist, contentPersistLoop_store]
    have hins : (contentUpload s files).2.totalItems =
        (insRows s (contentCollect files)).length := by
      show (contentPersist s (contentCollect files)).ins = _
      rw [contentPersist, contentPersistLoop_ins]
      simp
    have hdup : (contentUpload s files).2.duplicatesCount +
        (insRows s (contentCollect files)).length = (contentCollect files).length := by
      show (contentPersist s (contentCollect files)).dup + _ = _
      rw [contentPersist]
      have := contentPersistLoop_dup (contentCollect files) ⟨s, 0, 0, [], decZero⟩
      simpa using this
    refine ⟨?_, ?_, ?_, ?_⟩
    · rw [hst, keyCountC_append, existsMatch_false_count hf, hone]
    · by_contra h0
      have hdup0 : (contentUpload s files).2.duplicatesCount = 0 := by omega
      rw [hdup0, Nat.zero_add] at hdup
      have heq := insRows_length_eq (contentCollect files) s hdup
      rw [heq] at hone
      omega
    · omega
    · intro x hx
      rw [hst]
      exact insRows_unique (contentCollect files) s hstore x hx
  · intro s files k hclean hfresh hocc
    have hst : identCollect s files =
        ⟨tcDelta (files.flatMap (fun f => f.drop 1)),
         dupDelta s [] (files.flatMap (fun f => f.drop 1)),
         (newEntries s [] (files.flatMap (fun f => f.drop 1))).map Prod.fst,
         (newEntries s [] (files.flatMap (fun f => f.drop 1))).map Prod.snd⟩ := by
      rw [identCollect_eq, identFlat_char]
      simp
    have hid : ∀ p ∈ newEntries s [] (files.flatMap (fun f => f.drop 1)),
        (toDbRow p.2).id = p.1 := by
      intro p hp
      obtain ⟨r, hr, hv⟩ :=
        newEntries_from_rows (files.flatMap (fun f => f.drop 1)) s [] p hp
      obtain ⟨-, hpr⟩ := identRowValid_some hv
      obtain ⟨id, rec⟩ := p
      obtain ⟨hraw, hat⟩ := identParseRow_id hpr
      rw [hclean r hr] at hat
      show (atoi rec.idRaw).getD 0 = id
      rw [hraw, hat]
      rfl
    have hfr : ∀ p ∈ newEntries s [] (files.flatMap (fun f => f.drop 1)),
        (s.any fun x => x.id = p.1) = false :=
      fun p hp => (newEntries_fresh (files.flatMap (fun f => f.drop 1)) s [] p hp).2
    have hnd := newEntries_ids_nodup (files.flatMap (fun f => f.drop 1)) s []
    have hins := identInsertLoop_clean (newEntries s [] (files.flatMap (fun f => f.drop 1)))
      s (dupDelta s [] (files.flatMap (fun f => f.drop 1))) hid hfr hnd
    have hu1 : (identUpload s files).1 =
        s ++ (newEntries s [] (files.flatMap (fun f => f.drop 1))).map
          (fun p => toDbRow p.2) := by
      unfold identUpload
      rw [hst]
      dsimp only
      rw [hins]
    have hu2 : (identUpload s files).2.duplicatesCount =
        dupDelta s [] (files.flatMap (fun f => f.drop 1)) := by
      unfold identUpload
      rw [hst]
      dsimp only
      rw [hins]
    have hcnt1 : (newEntries s [] (files.flatMap (fun f => f.drop 1))).countP
        (fun p => decide (p.1 = k)) = 1 :=
      newEntries_countP_fresh (files.flatMap (fun f => f.drop 1)) s [] k
        (by simp) hfresh (by omega)
    refine ⟨?_, ?_, ?_⟩
    · rw [hu1]
      unfold idCount
      rw [List.countP_append]
      have hs0 : s.countP (fun x => decide (x.id = k)) = 0 := by
        rw [List.countP_eq_zero]
        intro x hx
        rw [List.any_eq_false] at hfresh
        simpa using hfresh x hx
      have hmap : (List.map (fun p => toDbRow p.2)
            (newEntries s [] (files.flatMap (fun f => f.drop 1)))).countP
          (fun x => decide (x.id = k)) =
          (newEntries s [] (files.flatMap (fun f => f.drop 1))).countP
            (fun p => decide (p.1 = k)) := by
        rw [List.countP_map]
        apply List.countP_congr
        intro p hp
        simp [Function.comp, hid p hp]
      rw [hs0, hmap, hcnt1]
    · rw [hu2]
      by_contra h0
      have hd0 : dupDelta s [] (files.flatMap (fun f => f.drop 1)) = 0 := by omega
      have hplus := dupDelta_plus (files.flatMap (fun f => f.drop 1)) s []
      rw [hd0, Nat.zero_add] at hplus
      have heq := newEntries_length_eq (files.flatMap (fun f => f.drop 1)) s [] hplus
      rw [heq] at hcnt1
      omega
    · intro hnds
      have hu0 : (identUpload s files).1 =
          (identInsertLoop s (identCollect s files).dup (identCollect s files).queue).1 := by
        rcases hi : identInsertLoop s (identCollect s files).dup (identCollect s files).queue
          with ⟨a, b⟩
        simp [identUpload, hi]
      rw [hu0]
      exact identInsertLoop_nodup (identCollect s files).queue s
        (identCollect s files).dup hnds

/-- Counterexample to C1 as stated: when the dedup key is already in
the persisted store, a batch with two rows equal on that key inserts
NEITHER of them — both are counted as duplicates — contradicting
"exactly one of the two is inserted", which only holds for a key not
yet persisted. -/
theorem c1_counterexample :
    keyCountC (contentCollect [[["id", "name", "category", "price", "create_date"],
        ["0", "a", "b", "1", "2024-01-02"], ["0", "a", "b", "1", "2024-01-02"]]])
      ⟨"a", "b", ⟨1, 1⟩, ⟨2024, 1, 2⟩⟩ = 2 ∧
    (contentUpload [⟨"a", "b", ⟨1, 1⟩, ⟨2024, 1, 2⟩⟩]
      [[["id", "name", "category", "price", "create_date"],
        ["0", "a", "b", "1", "2024-01-02"], ["0", "a", "b", "1", "2024-01-02"]]]).2.totalItems
      = 0 ∧
    (contentUpload [⟨"a", "b", ⟨1, 1⟩, ⟨2024, 1, 2⟩⟩]
      [[["id", "name", "category", "price", "create_date"],
        ["0", "a", "b", "1", "2024-01-02"],
        ["0", "a", "b", "1", "2024-01-02"]]]).2.duplicatesCount = 2 ∧
    (contentUpload [⟨"a", "b", ⟨1, 1⟩, ⟨2024, 1, 2⟩⟩]
      [[["id", "name", "category", "price", "create_date"],
        ["0", "a", "b", "1", "2024-01-02"], ["0", "a", "b", "1", "2024-01-02"]]]).1 =
      [⟨"a", "b", ⟨1, 1⟩, ⟨2024, 1, 2⟩⟩] := by
  decide

/-- Witness for C1 at concrete inputs: a fresh key duplicated in the
batch is inserted exactly once in both variants, with a duplicate
tallied. -/
theorem c1_dedup_key_uniqueness_witness :
    (keyCountC (contentUpload []
        [[["id", "name", "category", "price", "create_date"],
          ["0", "a", "b", "1", "2024-01-02"], ["0", "a", "b", "1", "2024-01-02"]]]).1
        ⟨"a", "b", ⟨1, 1⟩, ⟨2024, 1, 2⟩⟩ = 1 ∧
      1 ≤ (contentUpload []
        [[["id", "name", "category", "price", "create_date"],
          ["0", "a", "b", "1", "2024-01-02"],
          ["0", "a", "b", "1", "2024-01-02"]]]).2.duplicatesCount) ∧
    (idCount (identUpload []
        [[["id", "name", "category", "price", "create_date"],
          ["7", "a", "b", "1", "2024-01-02"], ["7", "c", "d", "2", "2024-01-03"]]]).1 7 = 1 ∧
      1 ≤ (identUpload []
        [[["id", "name", "category", "price", "create_date"],
          ["7", "a", "b", "1", "2024-01-02"],
          ["7", "c", "d", "2", "2024-01-03"]]]).2.duplicatesCount) := by
  constructor
  · have h := c1_dedup_key_uniqueness.1 []
      [[["id", "name", "category", "price", "create_date"],
        ["0", "a", "b", "1", "2024-01-02"], ["0", "a", "b", "1", "2024-01-02"]]]
      ⟨"a", "b", ⟨1, 1⟩, ⟨2024, 1, 2⟩⟩
      (by decide) (by intro x _; simp [keyCountC]) (by decide) (by decide)
    exact ⟨h.1, h.2.1⟩
  · have h := c1_dedup_key_uniqueness.2 []
      [[["id", "name", "category", "price", "create_date"],
        ["7", "a", "b", "1", "2024-01-02"], ["7", "c", "d", "2", "2024-01-03"]]]
      7 (by decide) (by decide) (by decide)
    exact ⟨h.1, h.2.1⟩

/-- C3 (amended): a data row enters the validated set iff it has at
least 5 columns, its trimmed price parses as a decimal strictly greater
than zero, its trimmed date parses exactly as `YYYY-MM-DD`, and its
trimmed name and category are non-empty — and, in the identifier-keyed
variant, additionally its trimmed identifier column parses as an
integer.  Rows failing these checks are dropped without an error
value.  (The checks short-circuit, but their internal order differs
between variants and from the claim; acceptance itself is
order-independent.) -/
theorem c3_row_acceptance :
    (∀ record : List String,
        (parseRowContent record).isSome = true ↔
          (5 ≤ record.length ∧
           (∃ p, parseFloatDec (trimSpace (record.getD 3 "")) = some p ∧
             decLe p decZero = false) ∧
           (parseDate (trimSpace (record.getD 4 ""))).isSome = true ∧
           trimSpace (record.getD 1 "") ≠ "" ∧ trimSpace (record.getD 2 "") ≠ "")) ∧
    (∀ record : List String,
        (identRowValid record).isSome = true ↔
          (5 ≤ record.length ∧
           (atoi (trimSpace (record.getD 0 ""))).isSome = true ∧
           (∃ p, parseFloatDec (trimSpace (record.getD 3 "")) = some p ∧
             decLe p decZero = false) ∧
           (parseDate (trimSpace (record.getD 4 ""))).isSome = true ∧
           trimSpace (record.getD 1 "") ≠ "" ∧ trimSpace (record.getD 2 "") ≠ "")) := by
  constructor
  · intro record
    simp only [parseRowContent]
    by_cases hlen : record.length < 5
    · rw [if_pos hlen]
      simp only [Option.isSome_none, Bool.false_eq_true, false_iff]
      rintro ⟨h5, -⟩
      omega
    · rw [if_neg hlen]
      by_cases hname : trimSpace (record.getD 1 "") = "" ∨ trimSpace (record.getD 2 "") = ""
      · rw [if_pos hname]
        simp only [Option.isSome_none, Bool.false_eq_true, false_iff]
        rintro ⟨-, -, -, hn, hc⟩
        rcases hname with h | h
        · exact hn h
        · exact hc h
      · rw [if_neg hname]
        cases hp : parseFloatDec (trimSpace (record.getD 3 "")) with
        | none => simp [hp]
        | some p =>
          cases hle : decLe p decZero with
          | true => simp [hp, hle]
          | false =>
            cases hd : parseDate (trimSpace (record.getD 4 "")) with
            | none => simp [hp, hle, hd]
            | some dte =>
              simp [hp, hle, hd]
              refine ⟨by omega, ?_, ?_⟩
              · simpa using (not_or.mp hname).1
              · simpa using (not_or.mp hname).2
  · intro record
    by_cases hlen : record.length < 5
    · rw [identRowValid, if_pos hlen]
      simp only [Option.isSome_none, Bool.false_eq_true, false_iff]
      rintro ⟨h5, -⟩
      omega
    · rw [identRowValid, if_neg hlen]
      simp only [identParseRow]
      cases hid : atoi (trimSpace (record.getD 0 "")) with
      | none => simp [hid]
      | some idv =>
        cases hp : parseFloatDec (trimSpace (record.getD 3 "")) with
        | none => simp [hid, hp]
        | some p =>
          cases hle : decLe p decZero with
          | true => simp [hid, hp, hle]
          | false =>
            cases hd : parseDate (trimSpace (record.getD 4 "")) with
            | none => simp [hid, hp, hle, hd]
            | some dte =>
              by_cases hn1 : trimSpace (record.getD 1 "") = ""
              · simp [hid, hp, hle, hd, hn1]
                intro h1 _
                exact absurd (by simpa using hn1) h1
              · by_cases hn2 : trimSpace (record.getD 2 "") = ""
                · simp [hid, hp, hle, hd, hn1, hn2]
                  intro _ h2
                  exact absurd (by simpa using hn2) h2
                · simp [hid, hp, hle, hd, hn1, hn2]
                  intro _ _
                  omega

/-- Counterexample to C3 as stated: this row satisfies all four claimed
conditions (5 columns, positive price, valid date, non-empty trimmed
name and category) yet the identifier-keyed variant drops it — its
identifier column does not parse as an integer — so an ingestion of it
into the empty store leaves the store empty. -/
theorem c3_counterexample :
    5 ≤ (["x", "a", "b", "1", "2024-01-02"] : List String).length ∧
    parseFloatDec (trimSpace ((["x", "a", "b", "1", "2024-01-02"] : List String).getD 3 ""))
      = some ⟨1, 1⟩ ∧
    decLe ⟨1, 1⟩ decZero = false ∧
    Option.isSome
      (parseDate (trimSpace ((["x", "a", "b", "1", "2024-01-02"] : List String).getD 4 "")))
      = true ∧
    trimSpace ((["x", "a", "b", "1", "2024-01-02"] : List String).getD 1 "") ≠ "" ∧
    trimSpace ((["x", "a", "b", "1", "2024-01-02"] : List String).getD 2 "") ≠ "" ∧
    (identRowValid ["x", "a", "b", "1", "2024-01-02"]).isSome = false ∧
    (identUpload [] [[["id", "name", "category", "price", "create_date"],
        ["x", "a", "b", "1", "2024-01-02"]]]).1 = [] := by
  decide
